import Mathlib

/-!
Verification development for the Searchlist-Converter layout engine
(`converter_functions.py`).  The table text is modelled as `Str := List Char`
(Python `str` slicing and iteration is by code point, matching `List Char`).
The PIL text-measurement primitive (`text_size`, an external collaborator) is
modelled as an abstract function `String/Str → Nat`; the pyphen hyphenation
dictionary (external library) is modelled as an optional `Str → Str` oracle.
All engine code (wrapping, truncation, normalization, width allocation and
pagination) is transcribed from the Python source.
-/

/-- Text values, modelled as lists of characters (Python `str`). -/
abbrev Str := List Char

/-- The soft-hyphen marker `"­"` that `wrap_text` appends to forcibly
split line fragments. -/
def shy : Char := Char.ofNat 0xAD

/-- Prepend a character to the first fragment of a fragment list. -/
def consHead (c : Char) : List Str → List Str
  | [] => [[c]]
  | t :: ts => (c :: t) :: ts

/-- Python `s.split(sep)` for a single-character separator: splits at every
occurrence, keeping empty fragments (so `"".split(" ") = [""]` and
`" ".split(" ") = ["", ""]`). -/
def splitOnChar (sep : Char) : Str → List Str
  | [] => [[]]
  | c :: rest =>
    if c = sep then [] :: splitOnChar sep rest else consHead c (splitOnChar sep rest)

/-- Remove every occurrence of the soft-hyphen marker from a fragment
(used to state the "stripping the markers" invariants). -/
def stripShy (s : Str) : Str := s.filter (fun c => c ≠ shy)

/-- The word sequence of a text: the nonempty fragments of splitting on
single spaces. -/
def wordsOf (t : Str) : List Str := (splitOnChar ' ' t).filter (fun w => w ≠ [])

/-- Configuration of `wrap_text` that the Python function reads from its
environment: the measurement primitive (`text_size(draw, ., font)[0]`, an
external PIL call, hence a parameter) and the module-level hyphenation
globals `HYPHENATE_HEADERS` / `HYPHENATOR` (the pyphen `inserted` method is
the external oracle `inserted?`). -/
structure WrapCfg where
  width : Str → Nat
  hyphHeaders : Bool
  inserted? : Option (Str → Str)

/-- Python truthiness of the `hard_chunk` argument (`bool(hard_chunk)`):
`None` and `0` are falsy. -/
def hcTruthy : Option Nat → Bool
  | none => false
  | some k => k ≠ 0

/-- The accepting scan of `hyphen_split_once`: starting from prefix
`pref`/count `consumed`, keep appending syllables while
`text_width(candidate + "-") <= inner` holds, stopping at the first
failure (the `for idx in range(len(syllables) - 1)` loop). -/
def hyphScan (w : Str → Nat) (inner : Nat) : Str → Nat → List Str → Str × Nat
  | pref, consumed, [] => (pref, consumed)
  | pref, consumed, s :: rest =>
    let cand := pref ++ s
    if w (cand ++ ['-']) ≤ inner then hyphScan w inner cand (consumed + 1) rest
    else (pref, consumed)

/-- `hyphen_split_once(token)`: consult the hyphenation oracle for the
longest syllable prefix whose width (with a trailing `-`) fits `inner`;
return the prefix with a soft hyphen appended plus the unconsumed rest, or
`(none, token)` when hyphenation is off or finds no viable boundary.
(`HYPHENATOR.inserted(token) or token` falls back to the token when the
oracle returns an empty string.) -/
def hyphenSplitOnce (cfg : WrapCfg) (inner : Nat) (useHyph : Bool) (token : Str) :
    Option Str × Str :=
  if useHyph = false ∨ token = [] then (none, token)
  else
    match cfg.inserted? with
    | none => (none, token)
    | some ins =>
      let raw := ins token
      let base := if raw = [] then token else raw
      let syllables := splitOnChar shy base
      if syllables.length ≤ 1 then (none, token)
      else
        let (pref, consumed) := hyphScan cfg.width inner [] 0 syllables.dropLast
        if 0 < consumed then (some (pref ++ [shy]), (syllables.drop consumed).flatten)
        else (none, token)

/-- The binary search of `split_token`: the largest `fit ∈ [lo, hi]` with
`text_width(remaining[:fit] + "-") <= inner`, in the exact loop shape of the
source (`fit` keeps the best accepted midpoint; `lo`/`hi` are Python ints,
so `hi` may drop below `lo`, ending the loop). -/
def bsearchFit (w : Str → Nat) (inner : Nat) (rem : Str) (lo hi : Int) (fit : Nat) : Nat :=
  if h : lo ≤ hi then
    let mid := (lo + hi) / 2
    if w (rem.take mid.toNat ++ ['-']) ≤ inner then bsearchFit w inner rem (mid + 1) hi mid.toNat
    else bsearchFit w inner rem lo (mid - 1) fit
  else fit
termination_by (hi + 1 - lo).toNat
decreasing_by
  · omega
  · omega

/-- The chunk length taken by one binary-search split step of `split_token`:
the binary search over `[1, limit]` (with `limit` capped by a truthy
positive `hard_chunk`), falling back to a single character when nothing
fits (`if fit == 0: fit = 1`). -/
def chunkFit (cfg : WrapCfg) (inner : Nat) (hardChunk : Option Nat) (remaining : Str) : Nat :=
  let limit : Nat := match hardChunk with
    | some k => if 0 < k then min remaining.length k else remaining.length
    | none => remaining.length
  let fit0 := bsearchFit cfg.width inner remaining 1 (limit : Int) 0
  if fit0 = 0 then 1 else fit0

/-- One `while remaining:` pass of `split_token`, with explicit fuel standing
for the iteration count (each Python iteration consumes at least one
character unless the hyphenation oracle misbehaves, in which case the Python
loop would not terminate; the fuel `token.length + 1` therefore never runs
out on the reachable paths). -/
def splitTokenAux (cfg : WrapCfg) (inner : Nat) (useHyph : Bool)
    (hardChunk : Option Nat) : Nat → Str → List Str
  | _, [] => []
  | 0, _ => []
  | fuel + 1, remaining =>
    if cfg.width remaining ≤ inner then [remaining]
    else
      match hyphenSplitOnce cfg inner useHyph remaining with
      | (some pref, rest) => pref :: splitTokenAux cfg inner useHyph hardChunk fuel rest
      | (none, _) =>
        let fit := chunkFit cfg inner hardChunk remaining
        (remaining.take fit ++ [shy]) :: splitTokenAux cfg inner useHyph hardChunk fuel (remaining.drop fit)

/-- `split_token(token)` from `wrap_text`: chop a token that is too wide for
`inner` into pieces, each but the last carrying a trailing soft hyphen. -/
def splitToken (cfg : WrapCfg) (inner : Nat) (useHyph : Bool)
    (hardChunk : Option Nat) (token : Str) : List Str :=
  splitTokenAux cfg inner useHyph hardChunk (token.length + 1) token

/-- The body of the `for idx, piece in enumerate(split_token(token))` loop:
state is `(lines, current)`; a soft-hyphen-terminated piece always flushes
its line. -/
def wrapStepPiece (cfg : WrapCfg) (inner : Nat) (st : List Str × Str)
    (ip : Nat × Str) : List Str × Str :=
  let lines := st.1
  let current := st.2
  let idx := ip.1
  let piece := ip.2
  let sep : Str := if idx = 0 ∧ current ≠ [] then [' '] else []
  let trial := if current ≠ [] then current ++ sep ++ piece else piece
  let (lines, current) :=
    if current ≠ [] ∧ inner < cfg.width trial then (lines ++ [current], piece)
    else (lines, trial)
  if piece.getLast? = some shy then (lines ++ [current], []) else (lines, current)

/-- The body of the `for token in content.split(" ")` loop of `wrap_text`. -/
def wrapStepToken (cfg : WrapCfg) (inner : Nat) (useHyph : Bool)
    (hardChunk : Option Nat) (st : List Str × Str) (token : Str) : List Str × Str :=
  let lines := st.1
  let current := st.2
  let trial := if current ≠ [] then current ++ [' '] ++ token else token
  if current ≠ [] ∧ cfg.width trial ≤ inner then (lines, trial)
  else
    let lines := if current ≠ [] then lines ++ [current] else lines
    let pieces := splitToken cfg inner useHyph hardChunk token
    pieces.enum.foldl (wrapStepPiece cfg inner) (lines, [])

/-- `wrap_text(draw, text, font, max_width, hard_chunk)`: greedy word wrap
with token splitting.  Empty text maps to a single empty line; the width
budget is clamped to at least 1; hyphenation applies only when `hard_chunk`
is truthy and the hyphenation globals are set. -/
def wrapText (cfg : WrapCfg) (text : Str) (maxWidth : Int)
    (hardChunk : Option Nat) : List Str :=
  if text = [] then [[]]
  else
    let inner : Nat := (max 1 maxWidth).toNat
    let useHyph := hcTruthy hardChunk && cfg.hyphHeaders && cfg.inserted?.isSome
    let st := (splitOnChar ' ' text).foldl (wrapStepToken cfg inner useHyph hardChunk) ([], [])
    if st.2 ≠ [] then st.1 ++ [st.2] else st.1

/-- The final `if current: lines.append(current)` of `wrap_text`. -/
def closeWrap (st : List Str × Str) : List Str :=
  if st.2 ≠ [] then st.1 ++ [st.2] else st.1

/-- Re-joining wrapped lines: a line ending in the soft-hyphen marker was an
artificial break, so its content glues directly onto the next line; any
other break was a word boundary, restored as a single space. -/
def rejoin : List Str → Str
  | [] => []
  | l :: ls =>
    if l.getLast? = some shy then l.dropLast ++ rejoin ls
    else
      match ls with
      | [] => l
      | _ :: _ => l ++ ' ' :: rejoin ls

/-- Glue a (space-free) fragment onto the first word of a word list. -/
def glueOnto (x : Str) : List Str → List Str
  | [] => [x]
  | w :: ws => (x ++ w) :: ws

/-- The word sequence of re-joined lines, computed line by line (soft-hyphen
lines glue their stripped content onto the following word). -/
def glueWords : List Str → List Str
  | [] => []
  | l :: ls =>
    if l.getLast? = some shy then glueOnto l.dropLast (glueWords ls)
    else wordsOf l ++ glueWords ls

/-- Well-formedness of a single emitted line: nonempty content once the
marker is stripped, no leading space, the marker occurs only as the final
character, and marker-terminated lines are single token pieces (no spaces). -/
def LineOk (l : Str) : Prop :=
  stripShy l ≠ [] ∧ l.headI ≠ ' ' ∧ l ≠ [] ∧
  (shy ∉ l ∨ ∃ q, l = q ++ [shy] ∧ shy ∉ q) ∧
  (l.getLast? = some shy → ' ' ∉ l.dropLast)

/-- Sanity of the hyphenation oracle (pyphen's documented behaviour):
`inserted` only interleaves soft hyphens into the token, producing no empty
syllables and no spaces. -/
def OracleSane (cfg : WrapCfg) : Prop :=
  ∀ ins, cfg.inserted? = some ins → ∀ t : Str, t ≠ [] → shy ∉ t → ' ' ∉ t →
    stripShy (if ins t = [] then t else ins t) = t ∧
    (∀ s ∈ splitOnChar shy (if ins t = [] then t else ins t), s ≠ []) ∧
    ' ' ∉ (if ins t = [] then t else ins t)

/-- A concrete measurement primitive for witnesses: ten pixels per character
(length-proportional, hence prefix-monotone). -/
def widthLen (s : Str) : Nat := 10 * s.length

/-- A concrete wrap configuration for witnesses and counterexamples:
length-proportional measurement, hyphenation globals at their module
defaults (`HYPHENATE_HEADERS = False`, `HYPHENATOR = None`). -/
def wcfg0 : WrapCfg := { width := widthLen, hyphHeaders := false, inserted? := none }

/-- Number of populated slots of a `(lines, current)` wrap state. -/
def stSize (st : List Str × Str) : Nat :=
  st.1.length + (if st.2 = [] then 0 else 1)

/-- The `while lo < hi` binary-search loop of `ellipsize`: the candidate at
`mid` is `value[:mid] + "…"`; an accepted candidate moves `lo` to `mid + 1`,
a rejected one moves `hi` to `mid`; the loop returns the final `lo`. -/
def ellLoop (w : Str → Nat) (maxW : Int) (value : Str) (lo hi : Nat) : Nat :=
  if h : lo < hi then
    let mid := (lo + hi) / 2
    if (w (value.take mid ++ ['…']) : Int) ≤ maxW then
      ellLoop w maxW value (mid + 1) hi
    else
      ellLoop w maxW value lo mid
  else lo
termination_by hi - lo
decreasing_by
  · omega
  · omega

/-- `ellipsize(draw, text, font, max_width)`: return the text unchanged when
it is empty or already fits, otherwise binary-search the longest prefix whose
`prefix + "…"` candidate fits and return `value[:max(lo - 1, 0)] + "…"`
(a bare `"…"` when `lo = 0`).  `str(text or "")` is the identity on an
actual string argument. -/
def ellipsize (w : Str → Nat) (value : Str) (maxW : Int) : Str :=
  if value = [] then []
  else if (w value : Int) ≤ maxW then value
  else
    let lo := ellLoop w maxW value 0 value.length
    if 0 < lo then value.take (lo - 1) ++ ['…'] else ['…']

/-- Python whitespace as stripped by `str.strip()` (the ASCII whitespace
characters; the model restricts `str.strip`'s Unicode whitespace set to
ASCII, which is all the claims exercise). -/
def pyIsSpace (c : Char) : Bool :=
  c = ' ' || c = Char.ofNat 0x09 || c = Char.ofNat 0x0A || c = Char.ofNat 0x0D ||
    c = Char.ofNat 0x0B || c = Char.ofNat 0x0C

/-- `fragment.strip()`: drop whitespace from both ends. -/
def stripWs (s : Str) : Str :=
  ((s.dropWhile pyIsSpace).reverse.dropWhile pyIsSpace).reverse

/-- The byte-order mark `"﻿"` stripped from the first header cell. -/
def bom : Char := Char.ofNat 0xFEFF

/-- The `cleaned` accumulator of `normalize_rows`: keep the rows with at
least one cell whose `strip()` is truthy (on typed `List[List[str]]` input
the `row is None` skip and `str(cell)` coercions are identities). -/
def keptRows (rows : List (List Str)) : List (List Str) :=
  rows.filter (fun row => row.any (fun cell => !(stripWs cell).isEmpty))

/-- The BOM fix-up `cleaned[0][0] = cleaned[0][0].lstrip("﻿")`, applied
only when the first kept row is truthy (nonempty). -/
def bomFix : List (List Str) → List (List Str)
  | [] => []
  | r0 :: rest =>
    (match r0 with
      | [] => ([] : List Str)
      | c0 :: cs => c0.dropWhile (fun ch => ch = bom) :: cs) :: rest

/-- `max_cols = max(len(r) for r in cleaned)` (the fold over a nonempty
list of lengths agrees with Python's `max`). -/
def maxCols (cleaned : List (List Str)) : Nat :=
  (cleaned.map List.length).foldl max 0

/-- One row of the final comprehension: right-pad a short row with empty
strings, slice a long one to `max_cols`. -/
def padTo (m : Nat) (r : List Str) : List Str :=
  if r.length < m then r ++ List.replicate (m - r.length) ([] : Str) else r.take m

/-- `normalize_rows(rows)`: drop blank rows, strip a leading BOM from the
first surviving cell, and equalize every row to `max_cols` cells. -/
def normalizeRows (rows : List (List Str)) : List (List Str) :=
  if rows = [] then []
  else
    let cleaned := keptRows rows
    if cleaned = [] then []
    else
      let cleaned2 := bomFix cleaned
      cleaned2.map (padTo (maxCols cleaned2))

/-- The geometry shared by `simulate_pages` and the render loop of
`render_pages_dynamic`: page margin, placeable height, top-band height,
table-header height, cell paddings, line gap and the body line height
`one_h_body` (all Python `int`s). -/
structure Geom where
  margin : Int
  placeH : Int
  bandH : Int
  headerH : Int
  padY : Int
  lineGap : Int
  oneH : Int

/-- The y coordinate where table content starts on a fresh page:
`margin + band_h + header_h` (what `start_page` returns and what both loops
reset `y` to). -/
def yTop (g : Geom) : Int := g.margin + g.bandH + g.headerH

/-- `min_block = 2 * pad_y + one_h_body`, the smallest slice height. -/
def minBlock (g : Geom) : Int := 2 * g.padY + g.oneH

/-- `avail = (margin + place_h) - y`. -/
def availOf (g : Geom) (y : Int) : Int := (g.margin + g.placeH) - y

/-- `k_fit = max(1, (avail - 2 * pad_y + line_gap) // (one_h_body + line_gap))`
(Python floor division). -/
def kFitOf (g : Geom) (avail : Int) : Int :=
  max 1 (Int.fdiv (avail - 2 * g.padY + g.lineGap) (g.oneH + g.lineGap))

/-- `take = min(k_fit, rest)` for one column, where `rest` is the column's
unconsumed line suffix `lines[offs:]` (the embedding keeps the suffix
itself instead of the `offs` index; `k_fit ≥ 1` makes `toNat` faithful). -/
def takeOf (kFit : Int) (l : List Str) : Nat := min kFit.toNat l.length

/-- `k_used = max(k_used, take)` folded over the columns, starting at 0. -/
def kUsedOf (kFit : Int) (rest : List (List Str)) : Nat :=
  (rest.map (takeOf kFit)).foldl max 0

/-- `slice_h = 2 * pad_y + k_used * one_h_body + (k_used - 1) * line_gap`
(only evaluated with `k_used ≥ 1`, so the truncated subtraction agrees
with Python). -/
def sliceHOf (g : Geom) (kUsed : Nat) : Int :=
  2 * g.padY + kUsed * g.oneH + ((kUsed - 1 : Nat) : Int) * g.lineGap

/-- The lines drawn for one slice: column `j` emits
`lines_per_col[j][offs[j]:offs[j] + take]`. -/
def sliceOf (kFit : Int) (rest : List (List Str)) : List (List Str) :=
  rest.map (fun l => l.take (takeOf kFit l))

/-- The per-column suffixes after a slice: `offs[j] += take`. -/
def restAfter (kFit : Int) (rest : List (List Str)) : List (List Str) :=
  rest.map (fun l => l.drop (takeOf kFit l))

/-- The post-slice page break of the render loop: a new page exactly when
the row still has unconsumed lines and `y > margin + place_h - min_block`
(the pair counts canvases appended so far). -/
def postBreak (g : Geom) (rest2 : List (List Str)) (y2 : Int) (b : Nat) : Int × Nat :=
  if rest2.all List.isEmpty = false ∧ g.margin + g.placeH - minBlock g < y2
  then (yTop g, b + 1) else (y2, b)

/-- The render loop's on-entry page break: when `avail < min_block`, append
the canvas (counted in the second component) and restart at the top of a
fresh page, without re-checking. -/
def entryBreak (g : Geom) (y : Int) (b : Nat) : Int × Nat :=
  if availOf g y < minBlock g then (yTop g, b + 1) else (y, b)

/-- The render loop's `while True` over one row, with fuel standing for the
iteration count (each iteration with `k_used > 0` consumes at least one
line, so `total lines + 1` iterations always finish).  One iteration:
break the page on entry when `avail < min_block` (without re-checking),
compute `k_fit` and the per-column takes, stop when `k_used == 0`,
otherwise emit the slice, advance `y` and apply the post-slice page break.
Returns the emitted slices, the final `y` and the number of canvases
appended. -/
def renderRowAux (g : Geom) : Nat → List (List Str) → Int → Nat →
    Option (List (List (List Str)) × Int × Nat)
  | 0, _, _, _ => none
  | fuel + 1, rest, y, b =>
    if kUsedOf (kFitOf g (availOf g (entryBreak g y b).1)) rest = 0 then
      some ([], (entryBreak g y b).1, (entryBreak g y b).2)
    else
      match renderRowAux g fuel
          (restAfter (kFitOf g (availOf g (entryBreak g y b).1)) rest)
          (postBreak g (restAfter (kFitOf g (availOf g (entryBreak g y b).1)) rest)
            ((entryBreak g y b).1 + sliceHOf g
              (kUsedOf (kFitOf g (availOf g (entryBreak g y b).1)) rest))
            (entryBreak g y b).2).1
          (postBreak g (restAfter (kFitOf g (availOf g (entryBreak g y b).1)) rest)
            ((entryBreak g y b).1 + sliceHOf g
              (kUsedOf (kFitOf g (availOf g (entryBreak g y b).1)) rest))
            (entryBreak g y b).2).2 with
      | none => none
      | some (slices, yf, bf) =>
        some (sliceOf (kFitOf g (availOf g (entryBreak g y b).1)) rest :: slices, yf, bf)

/-- Fuel that always suffices for one row: its total line count plus one. -/
def rowFuel (rest : List (List Str)) : Nat := (rest.map List.length).sum + 1

/-- The render loop over all rows: thread `y` and the appended-canvas count
through `renderRowAux`, collecting each row's slices. -/
def renderPagesAux (g : Geom) :
    List (List (List Str)) → Int → Nat →
    Option (List (List (List (List Str))) × Int × Nat)
  | [], y, b => some ([], y, b)
  | r :: rs, y, b =>
    match renderRowAux g (rowFuel r) r y b with
    | none => none
    | some (slices, y2, b2) =>
      match renderPagesAux g rs y2 b2 with
      | none => none
      | some (out, yf, bf) => some (slices :: out, yf, bf)

/-- The number of page images `render_pages_dynamic` returns: every canvas
appended during the row loop plus the final `pages.append(canvas)`. -/
def renderPageCount (g : Geom) (wrapped : List (List (List Str))) : Option Nat :=
  (renderPagesAux g wrapped (yTop g) 0).map (fun r => r.2.2 + 1)

/-- One row of `simulate_pages`: the same arithmetic as the render loop,
except that an `avail < min_block` page break `continue`s (re-checking
`avail`, which loops forever when a fresh page already lacks room) and the
row loop exits directly once every column is consumed. -/
def simulateRowAux (g : Geom) : Nat → List (List Str) → Int → Nat → Option (Int × Nat)
  | 0, _, _, _ => none
  | fuel + 1, rest, y, pages =>
    if availOf g y < minBlock g then
      simulateRowAux g fuel rest (yTop g) (pages + 1)
    else
      let kFit := kFitOf g (availOf g y)
      let kUsed := kUsedOf kFit rest
      if kUsed = 0 then some (y, pages)
      else
        let rest2 := restAfter kFit rest
        let y2 := y + sliceHOf g kUsed
        if rest2.all List.isEmpty then some (y2, pages)
        else if g.margin + g.placeH - minBlock g < y2 then
          simulateRowAux g fuel rest2 (yTop g) (pages + 1)
        else
          simulateRowAux g fuel rest2 y2 pages

/-- `simulate_pages`' row loop folded over `wrapped_rows`. -/
def simulatePagesAux (g : Geom) (fuel : Nat) :
    List (List (List Str)) → Int → Nat → Option Nat
  | [], _, pages => some pages
  | r :: rs, y, pages =>
    match simulateRowAux g fuel r y pages with
    | none => none
    | some (y2, p2) => simulatePagesAux g fuel rs y2 p2

/-- `simulate_pages()`: start at `y = margin + band_h + header_h` with
`pages = 1` and return `max(1, pages)`; `none` when the given per-row fuel
is exhausted (the Python loop would still be running). -/
def simulatePages (g : Geom) (fuel : Nat) (wrapped : List (List (List Str))) : Option Nat :=
  (simulatePagesAux g fuel wrapped (yTop g) 1).map (fun p => max 1 p)

/-- `_wrap_row_cells(row)` (recomputed identically inside the render loop):
wrap cell `j` at inner width `max(1, col_widths[j] - 2 * pad_x)` with
`hard_chunk = BODY_HARD_WRAP_CHARS = 18`; a missing cell wraps as `""`. -/
def wrapRowCells (cfg : WrapCfg) (colWidths : List Int) (padX : Int)
    (row : List Str) : List (List Str) :=
  (List.range colWidths.length).map (fun j =>
    wrapText cfg (row.getD j []) (max 1 (colWidths.getD j 0 - 2 * padX)) (some 18))

/-- Concrete geometry for the page-count divergence: the table fills the
page to within `min_block` of the bottom. -/
def g0 : Geom := { margin := 0, placeH := 10, bandH := 0, headerH := 0,
                   padY := 0, lineGap := 0, oneH := 5 }

/-- Concrete geometry whose fresh pages already lack `min_block` of room
below the band and table header. -/
def g1 : Geom := { margin := 0, placeH := 10, bandH := 8, headerH := 0,
                   padY := 0, lineGap := 0, oneH := 5 }

/-- `HEADER_HARD_WRAP_CHARS = 5`. -/
def HEADER_HARD_WRAP_CHARS : Nat := 5

/-- `BODY_HARD_WRAP_CHARS = 18`. -/
def BODY_HARD_WRAP_CHARS : Nat := 18

/-- `re.findall(r"\S+", s)`: the maximal whitespace-free runs, obtained by
mapping every whitespace character to a space and splitting. -/
def tokensOf (s : Str) : List Str :=
  (splitOnChar ' ' (s.map (fun c => if pyIsSpace c then ' ' else c))).filter
    (fun w => !w.isEmpty)

/-- `token[idx:idx + k] for idx in range(0, len(token), k)`. -/
def chunksOf (k : Nat) (t : Str) : List Str :=
  if h : t = [] ∨ k = 0 then []
  else t.take k :: chunksOf k (t.drop k)
termination_by t.length
decreasing_by
  simp only [List.length_drop]
  push_neg at h
  have h1 : t.length ≠ 0 := fun hh => h.1 (List.eq_nil_of_length_eq_zero hh)
  omega

/-- The header pieces measured by `measure_header_and_words`: a token longer
than `HEADER_HARD_WRAP_CHARS` contributes its 5-character chunks, any other
token contributes itself. -/
def headerPiecesOf (tok : Str) : List Str :=
  if HEADER_HARD_WRAP_CHARS < tok.length then chunksOf HEADER_HARD_WRAP_CHARS tok else [tok]

/-- The environment the allocator measures with: the header and body wrap
configurations (their `width` is PIL's `text_size` for the two fonts), the
two line heights, the query-regex oracle of `looks_like_query_column`, and
`pad_x`. -/
structure AllocEnv where
  cfgH : WrapCfg
  cfgB : WrapCfg
  oneHH : Nat
  oneHB : Nat
  patternHit : Str → Bool
  padX : Int

/-- `header_piece_longest[j]`: the widest padded header piece, starting
from 0. -/
def headerPieceLongest (env : AllocEnv) (text : Str) : Int :=
  (((tokensOf text).map headerPiecesOf).flatten.map
    (fun p => (env.cfgH.width p : Int) + 2 * env.padX)).foldl max 0

/-- `min_floor_from_font(draw, font_body, pad_x, 3) = text_size("WWW") +
2 * pad_x`. -/
def minFloorFromFont (env : AllocEnv) : Int :=
  (env.cfgB.width ['W', 'W', 'W'] : Int) + 2 * env.padX

/-- Column `j`'s cells: the rows that reach index `j` (the source guard
`j < min(len(row), n)`). -/
def colCells (rows : List (List Str)) (j : Nat) : List Str :=
  rows.filterMap (fun r => r.get? j)

/-- `natural[j]`: the widest padded full cell of column `j`, header
included, starting from 0. -/
def naturalOf (env : AllocEnv) (header : List Str) (rows : List (List Str)) (j : Nat) : Int :=
  (((env.cfgH.width (header.getD j []) : Int) + 2 * env.padX) ::
    (colCells rows j).map (fun t => (env.cfgB.width t : Int) + 2 * env.padX)).foldl max 0

/-- `minw[j] = max(min_floor, header_piece_longest[j])`. -/
def minwOf (env : AllocEnv) (header : List Str) : List Int :=
  (List.range header.length).map (fun j =>
    max (minFloorFromFont env) (headerPieceLongest env (header.getD j [])))

/-- The `natural` vector of `measure_header_and_words`. -/
def naturalsOf (env : AllocEnv) (header : List Str) (rows : List (List Str)) : List Int :=
  (List.range header.length).map (naturalOf env header rows)

/-- `widths[j] = max(minw[j], min(natural[j], max(1, place_w // n)))`. -/
def widths0Of (env : AllocEnv) (placeW : Int) (header : List Str) (rows : List (List Str)) :
    List Int :=
  (List.range header.length).map (fun j =>
    max ((minwOf env header).getD j 0)
      (min ((naturalsOf env header rows).getD j 0) (max 1 (placeW.fdiv header.length))))

/-- The length `list(zip(*rows))` truncates every row to: the shortest
row's length (0 for no rows). -/
def minRowLen : List (List Str) → Nat
  | [] => 0
  | r :: rs => (rs.map List.length).foldl min r.length

/-- `columns = list(zip(*rows))`: the first `minRowLen` columns, each the
list of its cells in row order. -/
def columnsOf (rows : List (List Str)) : List (List Str) :=
  (List.range (minRowLen rows)).map (fun j => rows.map (fun r => r.getD j []))

/-- `t.count(c)`. -/
def countCh (c : Char) (t : Str) : Nat := (t.filter (fun x => x = c)).length

/-- The scoring loop of `looks_like_query_column` with its early `return
True` at score 4. -/
def llqAux (hit : Str → Bool) : List Str → Nat → Bool
  | [], score => decide (3 ≤ score)
  | t :: rest, score =>
    let s1 := score + (if hit t then 2 else 0) + countCh '(' t + countCh ')' t + countCh '"' t
    if 4 ≤ s1 then true else llqAux hit rest s1

/-- `looks_like_query_column(header_text, col_texts)` with the compiled
regex abstracted as the `hit` oracle and the default `sample = 30`. -/
def looksLikeQueryColumn (hit : Str → Bool) (headerText : Str) (colTexts : List Str) : Bool :=
  llqAux hit (colTexts.take 30) (if hit headerText then 1 else 0)

/-- `is_query_col[j]`. -/
def isQOf (env : AllocEnv) (header : List Str) (rows : List (List Str)) : List Bool :=
  (List.range header.length).map (fun j =>
    looksLikeQueryColumn env.patternHit (header.getD j []) ((columnsOf rows).getD j []))

/-- `q_idx = [j for j in range(n) if is_query_col[j]]`. -/
def qIdxOf (env : AllocEnv) (header : List Str) (rows : List (List Str)) : List Nat :=
  (List.range header.length).filter (fun j => (isQOf env header rows).getD j false)

/-- `caps[j] = int(place_w * (0.60 if query else 0.45))`: the real-valued
share is taken exactly over the rationals, `int()` truncation is the floor
for the positive page widths the renderer passes. -/
def capsOf (env : AllocEnv) (placeW : Int) (header : List Str) (rows : List (List Str)) :
    List Int :=
  (List.range header.length).map (fun j =>
    if (isQOf env header rows).getD j false then (placeW * 60).fdiv 100
    else (placeW * 45).fdiv 100)

/-- `compute_wrap_score`: `max(0, len(lines) - 1) * one_h` summed over the
column texts, wrapping at `inner = max(1, col_width - 2 * pad_x)`. -/
def computeWrapScore (cfg : WrapCfg) (oneH : Nat) (colTexts : List Str) (colWidth : Int)
    (padX : Int) (hard : Option Nat) : Nat :=
  (colTexts.map (fun t =>
    ((wrapText cfg t (max 1 (colWidth - 2 * padX)) hard).length - 1) * oneH)).sum

/-- `scores[j] = max(1, header wrap score + body wrap score)` at the current
width `max(widths[j], 1)`. -/
def scoresOf (env : AllocEnv) (placeW : Int) (header : List Str) (rows : List (List Str)) :
    List Int :=
  (List.range header.length).map (fun j =>
    ((max 1 (computeWrapScore env.cfgH env.oneHH [header.getD j []]
        (max ((widths0Of env placeW header rows).getD j 0) 1) env.padX
        (some HEADER_HARD_WRAP_CHARS)
      + computeWrapScore env.cfgB env.oneHB ((columnsOf rows).getD j [])
        (max ((widths0Of env placeW header rows).getD j 0) 1) env.padX
        (some BODY_HARD_WRAP_CHARS)) : Nat) : Int))

/-- Python 3's `round()` of the exact quotient `a / b` (`b` positive in
every use): round half to even, via the floor quotient and twice the
remainder. -/
def roundHE (a b : Int) : Int :=
  if 2 * (a - a.fdiv b * b) < b then a.fdiv b
  else if b < 2 * (a - a.fdiv b * b) then a.fdiv b + 1
  else if a.fdiv b % 2 = 0 then a.fdiv b else a.fdiv b + 1

/-- Stable descending insertion for `sorted(..., reverse=True)`: an element
goes behind the strictly larger keys and in front of equal ones (the
inserted element's original position is earlier, so equal keys keep index
order). -/
def insertDesc (key : Nat → Int) (j : Nat) : List Nat → List Nat
  | [] => [j]
  | k :: rest => if key j < key k then k :: insertDesc key j rest else j :: k :: rest

/-- Stable descending sort by key, as Python's stable
`sorted(..., reverse=True)` (which keeps equal keys in index order). -/
def sortDesc (key : Nat → Int) : List Nat → List Nat
  | [] => []
  | j :: rest => insertDesc key j (sortDesc key rest)

/-- `widths[j] = min(caps[j], widths[j] + int(round(buffer_width *
(scores[j] / total_score))))` of the no-query branch, with the float
arithmetic taken exactly over the rationals. -/
def widths2Of (env : AllocEnv) (placeW : Int) (header : List Str) (rows : List (List Str)) :
    List Int :=
  (List.range header.length).map (fun j =>
    min ((capsOf env placeW header rows).getD j 0)
      ((widths0Of env placeW header rows).getD j 0 +
        roundHE ((placeW - (widths0Of env placeW header rows).sum) *
          (scoresOf env placeW header rows).getD j 0)
          (scoresOf env placeW header rows).sum))

/-- `order = sorted(range(n), key=lambda j: scores[j], reverse=True)`
(merge sort is stable, like Python's `sorted`). -/
def scoreOrderOf (env : AllocEnv) (placeW : Int) (header : List Str) (rows : List (List Str)) :
    List Nat :=
  sortDesc (fun j => (scoresOf env placeW header rows).getD j 0) (List.range header.length)

/-- One `for j in order` sweep of the ±1 reconciliation loops shared by the
no-query and query branches: stop at `diff == 0`, grow below the cap while
`diff > 0`, shrink above the minimum while `diff < 0`. -/
def reconPass (caps minw : List Int) : List Nat → List Int → Int → List Int × Int
  | [], w, d => (w, d)
  | j :: rest, w, d =>
    if d = 0 then (w, d)
    else if 0 < d ∧ w.getD j 0 < caps.getD j 0 then
      reconPass caps minw rest (w.set j (w.getD j 0 + 1)) (d - 1)
    else if d < 0 ∧ minw.getD j 0 < w.getD j 0 then
      reconPass caps minw rest (w.set j (w.getD j 0 - 1)) (d + 1)
    else reconPass caps minw rest w d

/-- `while diff != 0 and guard < 10000`: at most `fuel` sweeps. -/
def reconLoop (caps minw : List Int) (order : List Nat) : Nat → List Int → Int → List Int
  | 0, w, _ => w
  | g + 1, w, d =>
    if d = 0 then w
    else
      let wd := reconPass caps minw order w d
      reconLoop caps minw order g wd.1 wd.2

/-- The no-query branch after the proportional buffer distribution:
reconcile `diff = place_w - sum(widths)` in wrap-score order. -/
def noQueryResult (env : AllocEnv) (placeW : Int) (header : List Str) (rows : List (List Str)) :
    List Int :=
  reconLoop (capsOf env placeW header rows) (minwOf env header)
    (scoreOrderOf env placeW header rows) 10000 (widths2Of env placeW header rows)
    (placeW - (widths2Of env placeW header rows).sum)

/-- One `for idx in order` sweep of `flex_fit_widths`' loop, carrying the
`changed` flag: growth is uncapped, shrinking is guarded by `minw`. -/
def flexPass (minw : List Int) : List Nat → List Int → Int → Bool → List Int × Int × Bool
  | [], w, d, ch => (w, d, ch)
  | j :: rest, w, d, ch =>
    if d = 0 then (w, d, ch)
    else if 0 < d then flexPass minw rest (w.set j (w.getD j 0 + 1)) (d - 1) true
    else if minw.getD j 0 < w.getD j 0 then flexPass minw rest (w.set j (w.getD j 0 - 1)) (d + 1) true
    else flexPass minw rest w d ch

/-- `while diff != 0 and guard < 10000` of `flex_fit_widths`, breaking when
a sweep changes nothing. -/
def flexLoop (minw : List Int) (order : List Nat) : Nat → List Int → Int → List Int × Int
  | 0, w, d => (w, d)
  | g + 1, w, d =>
    if d = 0 then (w, d)
    else
      let r := flexPass minw order w d false
      if r.2.2 = false then (r.1, r.2.1)
      else flexLoop minw order g r.1 r.2.1

/-- `flex_fit_widths(base, minw, target_width)`: proportional rounding
floored by `minw`, ±1 reconciliation in descending `base` order, and any
leftover forced into the last column (still floored by `minw[-1]`). -/
def flexFitWidths (base minw : List Int) (target : Int) : List Int :=
  if base.length = 0 then []
  else
    let total := if base.sum = 0 then 1 else base.sum
    let widths := (List.range base.length).map (fun i =>
      max (minw.getD i 0) (roundHE (base.getD i 0 * target) total))
    let order := sortDesc (fun i => base.getD i 0) (List.range base.length)
    let wd := flexLoop minw order 10000 widths (target - widths.sum)
    let leftover := target - wd.1.sum
    if leftover = 0 then wd.1
    else wd.1.set (base.length - 1) (max (minw.getD (base.length - 1) 0)
      (wd.1.getD (base.length - 1) 0 + leftover))

/-- The `while tentative_target > current_max_q` search of the query
branch, lowering the target until the queries' need fits the buffer. -/
def tentLoop (widths : List Int) (qIdx : List Nat) (buffer cur : Int) : Nat → Int → Int
  | 0, t => t
  | f + 1, t =>
    if cur < t then
      if (qIdx.map (fun j => max 0 (t - widths.getD j 0))).sum ≤ buffer then t
      else tentLoop widths qIdx buffer cur f (t - 1)
    else t

/-- The query branch's one-pixel dribble when `add_each <= 0`: `+1` per
candidate while buffer remains, then stop. -/
def seqAdd (caps : List Int) : List Nat → List Int → Int → List Int
  | [], w, _ => w
  | j :: rest, w, buffer =>
    if buffer ≤ 0 then w
    else if w.getD j 0 < caps.getD j 0 then seqAdd caps rest (w.set j (w.getD j 0 + 1)) (buffer - 1)
    else seqAdd caps rest w buffer

/-- The `while buffer_width > 0` equalizing distribution of the query
branch: spread `add_each` over the under-cap query columns, falling back to
the one-pixel dribble. -/
def qDistribute (caps : List Int) (qIdx : List Nat) : Nat → List Int → Int → List Int
  | 0, w, _ => w
  | f + 1, w, buffer =>
    if buffer ≤ 0 then w
    else
      let candidates := qIdx.filter (fun j => w.getD j 0 < caps.getD j 0)
      if candidates = [] then w
      else
        let gaps := candidates.map (fun j => caps.getD j 0 - w.getD j 0)
        let addEach := min (buffer.fdiv candidates.length) (gaps.foldl min (gaps.headD 0))
        if addEach ≤ 0 then seqAdd caps candidates w buffer
        else qDistribute caps qIdx f
          (candidates.foldl (fun wa j => wa.set j (wa.getD j 0 + addEach)) w)
          (buffer - addEach * candidates.length)

/-- The query branch of `equal_width_with_buffer`: equalize the query
columns toward a tentative target, distribute the remaining buffer among
them, then reconcile with the query columns first. -/
def queryResult (env : AllocEnv) (placeW : Int) (header : List Str) (rows : List (List Str)) :
    List Int :=
  let minw := minwOf env header
  let caps := capsOf env placeW header rows
  let widths := widths0Of env placeW header rows
  let qIdx := qIdxOf env header rows
  let buffer := placeW - widths.sum
  let vsW := qIdx.map (fun j => widths.getD j 0)
  let curMaxQ := vsW.foldl max (vsW.headD 0)
  let vsC := qIdx.map (fun j => caps.getD j 0)
  let maxCapQ := vsC.foldl min (vsC.headD 0)
  let t0 := min maxCapQ (curMaxQ + buffer.fdiv qIdx.length)
  let t := tentLoop widths qIdx buffer curMaxQ (t0 - curMaxQ).toNat t0
  let need := (qIdx.map (fun j => max 0 (t - widths.getD j 0))).sum
  let widths3 := qIdx.foldl (fun wa j => wa.set j (wa.getD j 0 + max 0 (t - wa.getD j 0))) widths
  let widths4 := qDistribute caps qIdx ((buffer - need).toNat + 1) widths3 (buffer - need)
  let order := qIdx ++ (List.range header.length).filter (fun j => !(qIdx.contains j))
  reconLoop caps minw order 10000 widths4 (placeW - widths4.sum)

/-- `equal_width_with_buffer(place_w, header, rows, fonts, pad_x, line_gap)`
with the default `max_col_share`: empty header, flex-fit fallback, zero
buffer early return, then the no-query or query distribution. -/
def equalWidthWithBuffer (env : AllocEnv) (placeW : Int) (header : List Str)
    (rows : List (List Str)) : List Int :=
  if header.length = 0 then []
  else if placeW < (widths0Of env placeW header rows).sum ∨ placeW < (minwOf env header).sum then
    flexFitWidths (naturalsOf env header rows) (minwOf env header) placeW
  else if placeW - (widths0Of env placeW header rows).sum ≤ 0 then
    widths0Of env placeW header rows
  else if qIdxOf env header rows = [] then
    noQueryResult env placeW header rows
  else
    queryResult env placeW header rows

/-- A concrete allocator environment for witnesses and counterexamples:
length-proportional measurement for both fonts, ten-pixel line heights, a
never-matching query regex and no padding. -/
def env0 : AllocEnv := { cfgH := wcfg0, cfgB := wcfg0, oneHH := 10, oneHB := 10,
                         patternHit := fun _ => false, padX := 0 }

/-- "The last line of `A` (if any) does not end in the soft-hyphen marker":
appending fresh lines after `A` cannot glue into `A`'s content. -/
def NoTrailGlue (A : List Str) : Prop :=
  ∀ l, A.getLast? = some l → l.getLast? ≠ some shy

/-- Invariant of the `(lines, current)` state of `wrap_text`'s token loop. -/
def StOk (cfg : WrapCfg) (inner : Nat) (st : List Str × Str) : Prop :=
  (∀ l ∈ st.1, LineOk l ∧ cfg.width (stripShy l) ≤ inner) ∧
  (st.2 ≠ [] → cfg.width st.2 ≤ inner ∧ st.2.headI ≠ ' ' ∧ shy ∉ st.2) ∧
  (st.2 = [] → NoTrailGlue st.1)

lemma consHead_ne_nil (c : Char) (ls : List Str) : consHead c ls ≠ [] := by
  cases ls <;> simp [consHead]

lemma consHead_append (c : Char) (u v : List Str) (hu : u ≠ []) :
    consHead c (u ++ v) = consHead c u ++ v := by
  cases u with
  | nil => exact absurd rfl hu
  | cons t ts => simp [consHead]

lemma splitOnChar_ne_nil (sep : Char) (s : Str) : splitOnChar sep s ≠ [] := by
  cases s with
  | nil => simp [splitOnChar]
  | cons c rest =>
    simp only [splitOnChar]
    split
    · simp
    · exact consHead_ne_nil c _

lemma splitOnChar_append_sep (sep : Char) (a b : Str) :
    splitOnChar sep (a ++ sep :: b) = splitOnChar sep a ++ splitOnChar sep b := by
  induction a with
  | nil => simp [splitOnChar]
  | cons c a ih =>
    simp only [List.cons_append, splitOnChar, List.append_eq, ih]
    by_cases hc : c = sep
    · subst hc
      rw [if_pos rfl, if_pos rfl, List.cons_append]
    · simp only [if_neg hc]
      rw [consHead_append c _ _ (splitOnChar_ne_nil sep a)]

lemma splitOnChar_sep_free (sep : Char) (s : Str) (hs : sep ∉ s) :
    splitOnChar sep s = [s] := by
  induction s with
  | nil => rfl
  | cons c rest ih =>
    simp only [List.mem_cons, not_or] at hs
    have hc : ¬ c = sep := fun h => hs.1 h.symm
    simp [splitOnChar, hc, ih hs.2, consHead]

lemma mem_splitOnChar_not_sep (sep : Char) (s w : Str) (hw : w ∈ splitOnChar sep s) :
    sep ∉ w := by
  induction s generalizing w with
  | nil =>
    simp only [splitOnChar, List.mem_singleton] at hw
    subst hw; simp
  | cons c rest ih =>
    simp only [splitOnChar] at hw
    by_cases hc : c = sep
    · simp only [if_pos hc, List.mem_cons] at hw
      rcases hw with hw | hw
      · subst hw; simp
      · exact ih w hw
    · simp only [if_neg hc] at hw
      rcases h : splitOnChar sep rest with _ | ⟨t, ts⟩
      · exact absurd h (splitOnChar_ne_nil sep rest)
      · rw [h, consHead] at hw
        rcases List.mem_cons.mp hw with hw | hw
        · subst hw
          intro hmem
          rcases List.mem_cons.mp hmem with h1 | h1
          · exact hc h1.symm
          · exact ih t (h ▸ List.mem_cons_self t ts) h1
        · exact ih w (h ▸ List.mem_cons_of_mem t hw)

lemma mem_of_mem_splitOnChar (sep : Char) (s w : Str) (hw : w ∈ splitOnChar sep s)
    (c : Char) (hc : c ∈ w) : c ∈ s := by
  induction s generalizing w with
  | nil =>
    simp only [splitOnChar, List.mem_singleton] at hw
    subst hw; simp at hc
  | cons d rest ih =>
    simp only [splitOnChar] at hw
    by_cases hd : d = sep
    · simp only [if_pos hd, List.mem_cons] at hw
      rcases hw with hw | hw
      · subst hw; simp at hc
      · exact List.mem_cons_of_mem d (ih w hw hc)
    · simp only [if_neg hd] at hw
      rcases h : splitOnChar sep rest with _ | ⟨t, ts⟩
      · exact absurd h (splitOnChar_ne_nil sep rest)
      · rw [h, consHead] at hw
        rcases List.mem_cons.mp hw with hw | hw
        · subst hw
          rcases List.mem_cons.mp hc with h1 | h1
          · exact h1 ▸ List.mem_cons_self d rest
          · exact List.mem_cons_of_mem d (ih t (h ▸ List.mem_cons_self t ts) h1)
        · exact List.mem_cons_of_mem d (ih w (h ▸ List.mem_cons_of_mem t hw) hc)

lemma flatten_splitOnChar (sep : Char) (s : Str) :
    (splitOnChar sep s).flatten = s.filter (fun c => c ≠ sep) := by
  induction s with
  | nil => simp [splitOnChar]
  | cons c rest ih =>
    simp only [splitOnChar]
    by_cases hc : c = sep
    · rw [if_pos hc, List.filter_cons]
      simp only [hc, List.flatten_cons, List.nil_append, ih]
      simp
    · rw [if_neg hc, List.filter_cons]
      rcases h : splitOnChar sep rest with _ | ⟨t, ts⟩
      · exact absurd h (splitOnChar_ne_nil sep rest)
      · rw [h] at ih
        simp only [consHead, List.flatten_cons] at ih ⊢
        simp only [ne_eq, decide_not] at ih
        simp [hc, ← ih]

lemma stripShy_eq_self (s : Str) (hs : shy ∉ s) : stripShy s = s := by
  unfold stripShy
  apply List.filter_eq_self.mpr
  intro c hc
  simp only [ne_eq, decide_eq_true_eq]
  exact fun h => hs (h ▸ hc)

lemma stripShy_append (a b : Str) : stripShy (a ++ b) = stripShy a ++ stripShy b := by
  simp [stripShy]

lemma stripShy_concat_shy (q : Str) : stripShy (q ++ [shy]) = stripShy q := by
  simp [stripShy_append, stripShy]

lemma headI_append_of_ne_nil (a b : Str) (ha : a ≠ []) : (a ++ b).headI = a.headI := by
  cases a with
  | nil => exact absurd rfl ha
  | cons c r => rfl

lemma headI_ne_of_not_mem (a : Str) (x : Char) (ha : a ≠ []) (hx : x ∉ a) :
    a.headI ≠ x := by
  cases a with
  | nil => exact absurd rfl ha
  | cons c r =>
    intro h
    exact hx (h ▸ List.mem_cons_self c r)

lemma wordsOf_nil : wordsOf [] = [] := by decide

lemma wordsOf_append_space (a b : Str) :
    wordsOf (a ++ ' ' :: b) = wordsOf a ++ wordsOf b := by
  unfold wordsOf
  rw [splitOnChar_append_sep, List.filter_append]

lemma wordsOf_space_free (x : Str) (hx : ' ' ∉ x) (hne : x ≠ []) : wordsOf x = [x] := by
  unfold wordsOf
  rw [splitOnChar_sep_free _ _ hx]
  simp [hne]

lemma splitOnChar_glue (sep : Char) (x r : Str) (hx : sep ∉ x) :
    ∀ t ts, splitOnChar sep r = t :: ts → splitOnChar sep (x ++ r) = (x ++ t) :: ts := by
  induction x with
  | nil => intro t ts h; simpa using h
  | cons c x ih =>
    intro t ts h
    simp only [List.mem_cons, not_or] at hx
    have hc : ¬ c = sep := fun hh => hx.1 hh.symm
    simp only [List.cons_append, splitOnChar, if_neg hc, List.append_eq,
      ih hx.2 t ts h, consHead]

lemma wordsOf_glue (x r : Str) (hx : ' ' ∉ x) (hxne : x ≠ []) (hr : r.headI ≠ ' ') :
    wordsOf (x ++ r) = glueOnto x (wordsOf r) := by
  cases r with
  | nil =>
    rw [List.append_nil, wordsOf_space_free x hx hxne]
    simp [wordsOf_nil, glueOnto]
  | cons c r =>
    have hc : ¬ c = ' ' := by simpa [List.headI] using hr
    rcases h : splitOnChar ' ' r with _ | ⟨t', ts'⟩
    · exact absurd h (splitOnChar_ne_nil ' ' r)
    · have hsplit : splitOnChar ' ' (c :: r) = (c :: t') :: ts' := by
        simp only [splitOnChar, if_neg hc, h, consHead]
      have hglue := splitOnChar_glue ' ' x (c :: r) hx _ _ hsplit
      unfold wordsOf
      rw [hglue, hsplit, List.filter_cons, List.filter_cons]
      have h1 : (x ++ c :: t') ≠ [] := by simp
      have h2 : (c :: t') ≠ [] := by simp
      simp only [ne_eq, h1, h2, decide_not, decide_True, Bool.not_false, if_true]
      simp [glueOnto]

lemma glueOnto_append (x : Str) (u v : List Str) (hu : u ≠ []) :
    glueOnto x (u ++ v) = glueOnto x u ++ v := by
  cases u with
  | nil => exact absurd rfl hu
  | cons t ts => simp [glueOnto]

lemma wordsOf_ne_nil_head (l : Str) (hne : l ≠ []) (hh : l.headI ≠ ' ') :
    wordsOf l ≠ [] := by
  cases l with
  | nil => exact absurd rfl hne
  | cons c r =>
    have hc : ¬ c = ' ' := by simpa [List.headI] using hh
    rcases h : splitOnChar ' ' r with _ | ⟨t', ts'⟩
    · exact absurd h (splitOnChar_ne_nil ' ' r)
    · have hsplit : splitOnChar ' ' (c :: r) = (c :: t') :: ts' := by
        simp only [splitOnChar, if_neg hc, h, consHead]
      unfold wordsOf
      rw [hsplit, List.filter_cons]
      simp

lemma lineOk_shy_shape (l : Str) (h : LineOk l) (hl : l.getLast? = some shy) :
    ∃ q, l = q ++ [shy] ∧ shy ∉ q ∧ q ≠ [] ∧ l.dropLast = q ∧ q.headI = l.headI ∧ ' ' ∉ q := by
  rcases h with ⟨hstrip, hhead, hne, hdisj, hsp⟩
  rcases hdisj with hfree | ⟨q, rfl, hq⟩
  · exact absurd (List.mem_of_mem_getLast? hl) hfree
  · have hdrop : (q ++ [shy]).dropLast = q := by
      simp
    refine ⟨q, rfl, hq, ?_, hdrop, ?_, ?_⟩
    · intro hq0
      rw [hq0] at hstrip
      simp [stripShy] at hstrip
    · have hqne : q ≠ [] := by
        intro hq0
        rw [hq0] at hstrip
        simp [stripShy] at hstrip
      exact (headI_append_of_ne_nil q [shy] hqne).symm
    · exact hdrop ▸ hsp hl

lemma glueWords_ne_nil (ls : List Str) (h : ∀ l ∈ ls, LineOk l) (hne : ls ≠ []) :
    glueWords ls ≠ [] := by
  cases ls with
  | nil => exact absurd rfl hne
  | cons l ls =>
    have hl := h l (List.mem_cons_self l ls)
    unfold glueWords
    by_cases hshy : l.getLast? = some shy
    · rw [if_pos hshy]
      cases glueWords ls <;> simp [glueOnto]
    · rw [if_neg hshy]
      have := wordsOf_ne_nil_head l hl.2.2.1 hl.2.1
      intro habs
      rcases List.append_eq_nil.mp habs with ⟨h1, _⟩
      exact this h1

lemma rejoin_head (ls : List Str) (h : ∀ l ∈ ls, LineOk l) (hne : ls ≠ []) :
    rejoin ls ≠ [] ∧ (rejoin ls).headI ≠ ' ' := by
  cases ls with
  | nil => exact absurd rfl hne
  | cons l ls =>
    have hl := h l (List.mem_cons_self l ls)
    unfold rejoin
    by_cases hshy : l.getLast? = some shy
    · rw [if_pos hshy]
      rcases lineOk_shy_shape l hl hshy with ⟨q, hlq, hqshy, hqne, hdrop, hqhead, hqsp⟩
      rw [hdrop]
      constructor
      · simp [hqne]
      · rw [headI_append_of_ne_nil q _ hqne, hqhead]
        exact hl.2.1
    · rw [if_neg hshy]
      cases ls with
      | nil => exact ⟨hl.2.2.1, hl.2.1⟩
      | cons l2 ls2 =>
        constructor
        · simp [hl.2.2.1]
        · rw [headI_append_of_ne_nil l _ hl.2.2.1]
          exact hl.2.1

lemma wordsOf_rejoin (ls : List Str) (h : ∀ l ∈ ls, LineOk l) :
    wordsOf (rejoin ls) = glueWords ls := by
  induction ls with
  | nil => simp [rejoin, glueWords, wordsOf_nil]
  | cons l ls ih =>
    have hl := h l (List.mem_cons_self l ls)
    have hls : ∀ l' ∈ ls, LineOk l' := fun l' hl' => h l' (List.mem_cons_of_mem l hl')
    unfold rejoin glueWords
    by_cases hshy : l.getLast? = some shy
    · rw [if_pos hshy, if_pos hshy]
      rcases lineOk_shy_shape l hl hshy with ⟨q, hlq, hqshy, hqne, hdrop, hqhead, hqsp⟩
      rw [hdrop]
      cases ls with
      | nil =>
        simp only [rejoin, List.append_nil, glueWords]
        rw [wordsOf_space_free q hqsp hqne]
        simp [glueOnto]
      | cons l2 ls2 =>
        have hrej := rejoin_head (l2 :: ls2) hls (by simp)
        rw [wordsOf_glue q _ hqsp hqne hrej.2, ih hls]
    · rw [if_neg hshy, if_neg hshy]
      cases ls with
      | nil =>
        simp [glueWords, wordsOf_nil]
      | cons l2 ls2 =>
        rw [wordsOf_append_space, ih hls]

lemma glueWords_append_safe (A B : List Str) (hA : ∀ l ∈ A, LineOk l)
    (hsafe : NoTrailGlue A) :
    glueWords (A ++ B) = glueWords A ++ glueWords B := by
  have hG : ∀ (x : Str) (xs : List Str), glueWords (x :: xs) =
      if x.getLast? = some shy then glueOnto x.dropLast (glueWords xs)
      else wordsOf x ++ glueWords xs := fun x xs => rfl
  induction A with
  | nil => simp [glueWords]
  | cons l A ih =>
    have hl := hA l (List.mem_cons_self l A)
    have hA' : ∀ l' ∈ A, LineOk l' := fun l' h' => hA l' (List.mem_cons_of_mem l h')
    simp only [List.cons_append]
    rw [hG, hG]
    by_cases hshy : l.getLast? = some shy
    · rw [if_pos hshy, if_pos hshy]
      cases A with
      | nil =>
        exfalso
        exact hsafe l rfl hshy
      | cons l2 A2 =>
        have hsafe' : NoTrailGlue (l2 :: A2) := by
          intro x hx
          exact hsafe x (by rw [List.getLast?_cons_cons]; exact hx)
        rw [ih hA' hsafe']
        rw [glueOnto_append _ _ _ (glueWords_ne_nil (l2 :: A2) hA' (by simp))]
    · rw [if_neg hshy, if_neg hshy]
      cases A with
      | nil => simp [glueWords]
      | cons l2 A2 =>
        have hsafe' : NoTrailGlue (l2 :: A2) := by
          intro x hx
          exact hsafe x (by rw [List.getLast?_cons_cons]; exact hx)
        rw [ih hA' hsafe', List.append_assoc]

lemma glueWords_cons (x : Str) (xs : List Str) : glueWords (x :: xs) =
    if x.getLast? = some shy then glueOnto x.dropLast (glueWords xs)
    else wordsOf x ++ glueWords xs := rfl

lemma lineOk_of_parts (c : Str) (hcne : c ≠ []) (hch : c.headI ≠ ' ') (hcs : shy ∉ c) :
    LineOk c := by
  refine ⟨by rw [stripShy_eq_self c hcs]; exact hcne, hch, hcne, Or.inl hcs, ?_⟩
  intro hl
  exact absurd (List.mem_of_mem_getLast? hl) hcs

lemma getLast?_ne_shy_of_not_mem (l : Str) (hs : shy ∉ l) : l.getLast? ≠ some shy := by
  intro h
  exact hs (List.mem_of_mem_getLast? h)

lemma glueWords_lastext (L : List Str) (c t : Str) (hL : ∀ l ∈ L, LineOk l)
    (hcne : c ≠ []) (hch : c.headI ≠ ' ') (hcs : shy ∉ c)
    (hts : shy ∉ t) (htsp : ' ' ∉ t) :
    glueWords (L ++ [c ++ ' ' :: t]) = glueWords (L ++ [c]) ++ (if t = [] then [] else [t]) := by
  induction L with
  | nil =>
    simp only [List.nil_append]
    rw [glueWords_cons, glueWords_cons]
    have h1 : (c ++ ' ' :: t).getLast? ≠ some shy := by
      apply getLast?_ne_shy_of_not_mem
      intro hmem
      rcases List.mem_append.mp hmem with h | h
      · exact hcs h
      · rcases List.mem_cons.mp h with h | h
        · exact absurd h.symm (by decide : (' ' : Char) ≠ shy)
        · exact hts h
    have h2 : c.getLast? ≠ some shy := getLast?_ne_shy_of_not_mem c hcs
    rw [if_neg h1, if_neg h2]
    simp only [glueWords, List.append_nil]
    rw [wordsOf_append_space]
    by_cases ht : t = []
    · subst ht; simp [wordsOf_nil]
    · rw [wordsOf_space_free t htsp ht, if_neg ht]
  | cons l L ih =>
    have hl := hL l (List.mem_cons_self l L)
    have hL' : ∀ l' ∈ L, LineOk l' := fun l' h' => hL l' (List.mem_cons_of_mem l h')
    simp only [List.cons_append]
    rw [glueWords_cons, glueWords_cons]
    by_cases hshy : l.getLast? = some shy
    · rw [if_pos hshy, if_pos hshy, ih hL']
      have hok : ∀ l' ∈ L ++ [c], LineOk l' := by
        intro l' h'
        rcases List.mem_append.mp h' with h' | h'
        · exact hL' l' h'
        · rw [List.mem_singleton.mp h']
          exact lineOk_of_parts c hcne hch hcs
      rw [glueOnto_append _ _ _ (glueWords_ne_nil (L ++ [c]) hok (by simp))]
    · rw [if_neg hshy, if_neg hshy, ih hL', List.append_assoc]

lemma glueWords_pieces (qs : List Str) (last : Str)
    (hqs : ∀ q ∈ qs, q ≠ [] ∧ shy ∉ q ∧ ' ' ∉ q)
    (hlne : last ≠ []) (hls : shy ∉ last) (hlsp : ' ' ∉ last) :
    glueWords (qs.map (fun q => q ++ [shy]) ++ [last]) = [qs.flatten ++ last] := by
  induction qs with
  | nil =>
    simp only [List.map_nil, List.nil_append, List.flatten_nil]
    rw [glueWords_cons, if_neg (getLast?_ne_shy_of_not_mem last hls)]
    simp [glueWords, wordsOf_space_free last hlsp hlne]
  | cons q qs ih =>
    have hq := hqs q (List.mem_cons_self q qs)
    have hqs' : ∀ q' ∈ qs, q' ≠ [] ∧ shy ∉ q' ∧ ' ' ∉ q' :=
      fun q' h' => hqs q' (List.mem_cons_of_mem q h')
    simp only [List.map_cons, List.cons_append]
    rw [glueWords_cons, if_pos (by simp : (q ++ [shy]).getLast? = some shy)]
    have hdrop : (q ++ [shy]).dropLast = q := by simp
    rw [hdrop, ih hqs']
    simp [glueOnto]

lemma bsearchFit_spec (w : Str → Nat) (inner : Nat) (rem : Str) (K : Nat) :
    ∀ (n : Nat) (lo hi : Int) (fit : Nat), (hi + 1 - lo).toNat ≤ n →
    1 ≤ lo → hi ≤ (K : Int) → fit ≤ K →
    (fit = 0 ∨ (w (rem.take fit ++ ['-']) ≤ inner ∧ 1 ≤ fit)) →
    (bsearchFit w inner rem lo hi fit = 0 ∨
      (w (rem.take (bsearchFit w inner rem lo hi fit) ++ ['-']) ≤ inner ∧
        1 ≤ bsearchFit w inner rem lo hi fit)) ∧
    bsearchFit w inner rem lo hi fit ≤ K := by
  intro n
  induction n using Nat.strong_induction_on with
  | _ n ih =>
    intro lo hi fit hn hlo hhi hfit hinv
    rw [bsearchFit]
    by_cases h : lo ≤ hi
    · rw [dif_pos h]
      set mid := (lo + hi) / 2 with hmid
      have hmid1 : lo ≤ mid := by omega
      have hmid2 : mid ≤ hi := by omega
      have hlt : 0 < (hi + 1 - lo).toNat := by omega
      by_cases hacc : w (rem.take mid.toNat ++ ['-']) ≤ inner
      · rw [if_pos hacc]
        exact ih (hi + 1 - (mid + 1)).toNat (by omega) (mid + 1) hi mid.toNat
          (le_refl _) (by omega) hhi (by omega) (Or.inr ⟨hacc, by omega⟩)
      · rw [if_neg hacc]
        exact ih (mid - 1 + 1 - lo).toNat (by omega) lo (mid - 1) fit
          (le_refl _) hlo (by omega) hfit hinv
    · rw [dif_neg h]
      exact ⟨hinv.imp id (fun h' => h'), hfit⟩

lemma bsearchFit_none (w : Str → Nat) (inner : Nat) (rem : Str)
    (hrej : ∀ m : Nat, 1 ≤ m → ¬ (w (rem.take m ++ ['-']) ≤ inner)) :
    ∀ (n : Nat) (lo hi : Int), (hi + 1 - lo).toNat ≤ n → 1 ≤ lo →
    bsearchFit w inner rem lo hi 0 = 0 := by
  intro n
  induction n using Nat.strong_induction_on with
  | _ n ih =>
    intro lo hi hn hlo
    rw [bsearchFit]
    by_cases h : lo ≤ hi
    · rw [dif_pos h]
      set mid := (lo + hi) / 2 with hmid
      have hmid1 : lo ≤ mid := by omega
      have hmid2 : mid ≤ hi := by omega
      have hacc : ¬ (w (rem.take mid.toNat ++ ['-']) ≤ inner) := hrej mid.toNat (by omega)
      rw [if_neg hacc]
      exact ih (mid - 1 + 1 - lo).toNat (by omega) lo (mid - 1) (le_refl _) hlo
    · rw [dif_neg h]

lemma one_le_ite_fallback (n : Nat) : 1 ≤ if n = 0 then 1 else n := by
  split <;> omega

lemma chunkFit_pos (cfg : WrapCfg) (inner : Nat) (hardChunk : Option Nat) (rem : Str) :
    1 ≤ chunkFit cfg inner hardChunk rem :=
  one_le_ite_fallback _

lemma chunkFit_cases (cfg : WrapCfg) (inner : Nat) (hardChunk : Option Nat) (rem : Str)
    (hne : rem ≠ []) :
    chunkFit cfg inner hardChunk rem = 1 ∨
    (cfg.width (rem.take (chunkFit cfg inner hardChunk rem) ++ ['-']) ≤ inner ∧
      1 ≤ chunkFit cfg inner hardChunk rem ∧
      chunkFit cfg inner hardChunk rem ≤ rem.length) := by
  have hlen1 : 1 ≤ rem.length := by
    cases rem
    · exact absurd rfl hne
    · simp
  unfold chunkFit
  set limit := (match hardChunk with
    | some k => if 0 < k then min rem.length k else rem.length
    | none => rem.length : Nat) with hlimit
  have hlimle : limit ≤ rem.length := by
    rcases hardChunk with _ | k
    · simp [hlimit]
    · simp only [hlimit]
      by_cases hk : 0 < k
      · rw [if_pos hk]; simp
      · rw [if_neg hk]
  obtain ⟨hinv, hle⟩ := bsearchFit_spec cfg.width inner rem limit
    ((limit : Int) + 1 - 1).toNat 1 (limit : Int) 0 (le_refl _)
    (le_refl _) (le_refl _) (Nat.zero_le _) (Or.inl rfl)
  set fit0 := bsearchFit cfg.width inner rem 1 (limit : Int) 0 with hfit0
  rcases hinv with h0 | ⟨hacc, h1⟩
  · left
    rw [if_pos h0]
  · right
    rw [if_neg (by omega)]
    exact ⟨hacc, h1, le_trans hle hlimle⟩

lemma hyphScan_spec (w : Str → Nat) (inner : Nat) :
    ∀ (ls : List Str) (pre : Str) (n : Nat),
    ∃ k, k ≤ ls.length ∧
      hyphScan w inner pre n ls = (pre ++ (ls.take k).flatten, n + k) ∧
      (1 ≤ k → w ((pre ++ (ls.take k).flatten) ++ ['-']) ≤ inner) := by
  intro ls
  induction ls with
  | nil =>
    intro pre n
    exact ⟨0, by simp, by simp [hyphScan], by omega⟩
  | cons s rest ih =>
    intro pre n
    by_cases hacc : w ((pre ++ s) ++ ['-']) ≤ inner
    · rcases ih (pre ++ s) (n + 1) with ⟨k', hk', heq, hw⟩
      refine ⟨k' + 1, by simpa using hk', ?_, ?_⟩
      · simp only [hyphScan, if_pos hacc, heq]
        rw [List.take_succ_cons, List.flatten_cons, ← List.append_assoc]
        simp only [Prod.mk.injEq]
        exact ⟨trivial, by omega⟩
      · intro _
        rw [List.take_succ_cons, List.flatten_cons, ← List.append_assoc]
        rcases Nat.eq_zero_or_pos k' with h0 | hpos
        · subst h0
          simpa using hacc
        · exact hw hpos
    · refine ⟨0, by simp, ?_, by omega⟩
      simp only [hyphScan, List.take_zero, List.flatten_nil, List.append_nil, Nat.add_zero]
      rw [if_neg hacc]

lemma hyphenSplitOnce_spec (cfg : WrapCfg) (inner : Nat) (useHyph : Bool) (token : Str)
    (horacle : OracleSane cfg) (hne : token ≠ []) (hshy : shy ∉ token) (hsp : ' ' ∉ token) :
    hyphenSplitOnce cfg inner useHyph token = (none, token) ∨
    ∃ p rest, hyphenSplitOnce cfg inner useHyph token = (some (p ++ [shy]), rest) ∧
      p ≠ [] ∧ rest ≠ [] ∧ p ++ rest = token ∧ shy ∉ p ∧ ' ' ∉ p ∧ shy ∉ rest ∧ ' ' ∉ rest ∧
      cfg.width (p ++ ['-']) ≤ inner := by
  unfold hyphenSplitOnce
  by_cases h1 : useHyph = false ∨ token = []
  · rw [if_pos h1]; exact Or.inl rfl
  · rw [if_neg h1]
    rcases hins : cfg.inserted? with _ | ins
    · simp only [hins]
      exact Or.inl trivial
    · obtain ⟨hstrip, hfrag, hspb⟩ := horacle ins hins token hne hshy hsp
      simp only [hins]
      by_cases h2 : (splitOnChar shy (if ins token = [] then token else ins token)).length ≤ 1
      · rw [if_pos h2]; exact Or.inl rfl
      · rw [if_neg h2]
        set base := if ins token = [] then token else ins token with hbase
        set syls := splitOnChar shy base with hsyls
        obtain ⟨k, hk, heq, hw⟩ := hyphScan_spec cfg.width inner syls.dropLast [] 0
        rw [heq]
        have hlen : 2 ≤ syls.length := by omega
        have hdll : syls.dropLast.length = syls.length - 1 := List.length_dropLast syls
        have hkle : k ≤ syls.length - 1 := hdll ▸ hk
        have htk : syls.dropLast.take k = syls.take k := by
          rw [List.dropLast_eq_take, List.take_take]
          congr 1
          omega
        have hflat : syls.flatten = token := by
          rw [hsyls, flatten_splitOnChar]
          exact hstrip
        by_cases h3 : 0 < 0 + k
        · right
          refine ⟨(syls.take k).flatten, (syls.drop k).flatten, ?_, ?_, ?_, ?_, ?_, ?_, ?_, ?_, ?_⟩
          · have h3' : 0 < k := by omega
            simp only [htk, Nat.zero_add, if_pos h3', List.nil_append]
          · intro habs
            rcases (List.flatten_eq_nil_iff).mp habs with hall
            have hkne : syls.take k ≠ [] := by
              rw [ne_eq, List.take_eq_nil_iff]
              push_neg
              constructor
              · omega
              · intro hs
                rw [hs] at hlen
                simp at hlen
            rcases List.exists_mem_of_ne_nil _ hkne with ⟨s, hs⟩
            exact hfrag s (List.take_subset k syls hs) (hall s hs)
          · intro habs
            rcases (List.flatten_eq_nil_iff).mp habs with hall
            have hkne : syls.drop k ≠ [] := by
              rw [ne_eq, List.drop_eq_nil_iff]
              omega
            rcases List.exists_mem_of_ne_nil _ hkne with ⟨s, hs⟩
            exact hfrag s (List.drop_subset k syls hs) (hall s hs)
          · rw [← List.flatten_append, List.take_append_drop, hflat]
          · intro habs
            rcases List.mem_flatten.mp habs with ⟨s, hs, hmem⟩
            exact mem_splitOnChar_not_sep shy base s (List.take_subset k syls hs) hmem
          · intro habs
            rcases List.mem_flatten.mp habs with ⟨s, hs, hmem⟩
            exact hspb (mem_of_mem_splitOnChar shy base s (List.take_subset k syls hs) ' ' hmem)
          · intro habs
            rcases List.mem_flatten.mp habs with ⟨s, hs, hmem⟩
            exact mem_splitOnChar_not_sep shy base s (List.drop_subset k syls hs) hmem
          · intro habs
            rcases List.mem_flatten.mp habs with ⟨s, hs, hmem⟩
            exact hspb (mem_of_mem_splitOnChar shy base s (List.drop_subset k syls hs) ' ' hmem)
          · have := hw (by omega)
            rw [htk] at this
            simpa using this
        · left
          simp only [if_neg h3]

lemma splitTokenAux_spec (cfg : WrapCfg) (inner : Nat) (useHyph : Bool) (hardChunk : Option Nat)
    (hmono : ∀ s t : Str, cfg.width s ≤ cfg.width (s ++ t)) (horacle : OracleSane cfg) :
    ∀ (n : Nat) (remaining : Str) (fuel : Nat), remaining.length ≤ n → remaining ≠ [] →
    remaining.length < fuel → shy ∉ remaining → ' ' ∉ remaining →
    (∀ c ∈ remaining, cfg.width [c] ≤ inner) →
    ∃ (qs : List Str) (last : Str), splitTokenAux cfg inner useHyph hardChunk fuel remaining
        = qs.map (fun q => q ++ [shy]) ++ [last] ∧
      qs.flatten ++ last = remaining ∧
      (∀ q ∈ qs, q ≠ [] ∧ shy ∉ q ∧ ' ' ∉ q ∧ cfg.width q ≤ inner) ∧
      last ≠ [] ∧ shy ∉ last ∧ ' ' ∉ last ∧ cfg.width last ≤ inner := by
  intro n
  induction n using Nat.strong_induction_on with
  | _ n ih =>
    intro remaining fuel hlen hne hfuel hshy hsp hchars
    rcases hrem : remaining with _ | ⟨c, r⟩
    · exact absurd hrem hne
    subst hrem
    have hlen1 : 1 ≤ (c :: r).length := by simp
    rcases hfl : fuel with _ | f
    · omega
    subst hfl
    by_cases hfits : cfg.width (c :: r) ≤ inner
    · refine ⟨[], c :: r, ?_, by simp, by simp, by simp, hshy, hsp, hfits⟩
      simp [splitTokenAux, if_pos hfits]
    · rcases hyphenSplitOnce_spec cfg inner useHyph (c :: r) horacle (by simp) hshy hsp with
        heq | ⟨p, rest, heq, hpne, hrne, hsum, hps, hpsp, hrs, hrsp, hpw⟩
      · -- binary-search branch
        set fit := chunkFit cfg inner hardChunk (c :: r) with hfit
        have hstep : splitTokenAux cfg inner useHyph hardChunk (f + 1) (c :: r) =
            ((c :: r).take fit ++ [shy]) ::
              splitTokenAux cfg inner useHyph hardChunk f ((c :: r).drop fit) := by
          simp only [splitTokenAux, if_neg hfits, heq]
        have hfit1 : 1 ≤ fit := chunkFit_pos cfg inner hardChunk (c :: r)
        have hcases := chunkFit_cases cfg inner hardChunk (c :: r) (by simp)
        rw [← hfit] at hcases
        have hfitw : cfg.width ((c :: r).take fit) ≤ inner := by
          rcases hcases with h0 | ⟨hacc, _, _⟩
          · rw [h0]
            have ht1 : (c :: r).take 1 = [c] := by simp
            rw [ht1]
            exact hchars c (List.mem_cons_self c r)
          · calc cfg.width ((c :: r).take fit)
                ≤ cfg.width ((c :: r).take fit ++ ['-']) := hmono _ _
              _ ≤ inner := hacc
        have hfitlt : fit < (c :: r).length := by
          rcases hcases with h0 | ⟨hacc, _, hle⟩
          · rw [h0]
            by_contra hge
            have hlen2 : (c :: r).length = 1 := by omega
            have hsingle : (c :: r) = [c] := by
              cases r
              · rfl
              · simp at hlen2
            rw [hsingle] at hfits
            exact hfits (hchars c (List.mem_cons_self c r))
          · by_contra hge
            push_neg at hge
            have hfe : fit = (c :: r).length := by omega
            rw [hfe, List.take_length] at hacc
            exact hfits (le_trans (hmono (c :: r) ['-']) hacc)
        have hdlen : ((c :: r).drop fit).length = (c :: r).length - fit := List.length_drop _ _
        have hdne : (c :: r).drop fit ≠ [] := by
          rw [ne_eq, List.drop_eq_nil_iff]
          omega
        obtain ⟨qs', last', heq', hsum', hqs', hlne', hls', hlsp', hlw'⟩ :=
          ih (n - 1) (by omega) ((c :: r).drop fit) f (by omega) hdne (by omega)
            (fun hmem => hshy (List.drop_subset fit (c :: r) hmem))
            (fun hmem => hsp (List.drop_subset fit (c :: r) hmem))
            (fun ch hmem => hchars ch (List.drop_subset fit (c :: r) hmem))
        refine ⟨(c :: r).take fit :: qs', last', ?_, ?_, ?_, hlne', hls', hlsp', hlw'⟩
        · rw [hstep, heq', List.map_cons, List.cons_append]
        · simp only [List.flatten_cons, List.append_assoc, hsum']
          exact List.take_append_drop fit (c :: r)
        · intro q hq
          rcases List.mem_cons.mp hq with hq | hq
          · subst hq
            refine ⟨?_, ?_, ?_, hfitw⟩
            · rw [ne_eq, List.take_eq_nil_iff]
              push_neg
              exact ⟨by omega, by simp⟩
            · exact fun hmem => hshy (List.take_subset fit (c :: r) hmem)
            · exact fun hmem => hsp (List.take_subset fit (c :: r) hmem)
          · exact hqs' q hq
      · -- hyphenation branch
        have hstep : splitTokenAux cfg inner useHyph hardChunk (f + 1) (c :: r) =
            (p ++ [shy]) :: splitTokenAux cfg inner useHyph hardChunk f rest := by
          simp only [splitTokenAux, if_neg hfits, heq]
        have hplen : 1 ≤ p.length := by
          cases p
          · exact absurd rfl hpne
          · simp
        have hrlen : p.length + rest.length = (c :: r).length := by
          rw [← List.length_append, hsum]
        obtain ⟨qs', last', heq', hsum', hqs', hlne', hls', hlsp', hlw'⟩ :=
          ih (n - 1) (by omega) rest f (by omega) hrne (by omega) hrs hrsp
            (fun ch hmem => hchars ch (hsum ▸ List.mem_append_right p hmem))
        refine ⟨p :: qs', last', ?_, ?_, ?_, hlne', hls', hlsp', hlw'⟩
        · rw [hstep, heq', List.map_cons, List.cons_append]
        · simp only [List.flatten_cons, List.append_assoc, hsum']
          exact hsum
        · intro q hq
          rcases List.mem_cons.mp hq with hq | hq
          · subst hq
            exact ⟨hpne, hps, hpsp, le_trans (hmono q ['-']) hpw⟩
          · exact hqs' q hq

lemma splitToken_spec (cfg : WrapCfg) (inner : Nat) (useHyph : Bool) (hardChunk : Option Nat)
    (hmono : ∀ s t : Str, cfg.width s ≤ cfg.width (s ++ t)) (horacle : OracleSane cfg)
    (token : Str) (hne : token ≠ []) (hshy : shy ∉ token) (hsp : ' ' ∉ token)
    (hchars : ∀ c ∈ token, cfg.width [c] ≤ inner) :
    ∃ (qs : List Str) (last : Str), splitToken cfg inner useHyph hardChunk token
        = qs.map (fun q => q ++ [shy]) ++ [last] ∧
      qs.flatten ++ last = token ∧
      (∀ q ∈ qs, q ≠ [] ∧ shy ∉ q ∧ ' ' ∉ q ∧ cfg.width q ≤ inner) ∧
      last ≠ [] ∧ shy ∉ last ∧ ' ' ∉ last ∧ cfg.width last ≤ inner :=
  splitTokenAux_spec cfg inner useHyph hardChunk hmono horacle token.length token
    (token.length + 1) (le_refl _) hne (by omega) hshy hsp hchars

lemma splitTokenAux_tiny (cfg : WrapCfg) (inner : Nat) (useHyph : Bool) (hardChunk : Option Nat)
    (hmono : ∀ s t : Str, cfg.width s ≤ cfg.width (s ++ t)) (horacle : OracleSane cfg) :
    ∀ (remaining : Str) (fuel : Nat), remaining.length < fuel →
    shy ∉ remaining → ' ' ∉ remaining →
    (∀ c ∈ remaining, inner < cfg.width [c]) →
    splitTokenAux cfg inner useHyph hardChunk fuel remaining
      = remaining.map (fun c => [c, shy]) := by
  intro remaining
  induction remaining with
  | nil =>
    intro fuel _ _ _ _
    cases fuel <;> rfl
  | cons c r ihr =>
    intro fuel hfuel hshy hsp hchars
    rcases hfl : fuel with _ | f
    · omega
    subst hfl
    have hwc : inner < cfg.width [c] := hchars c (List.mem_cons_self c r)
    have hfits : ¬ cfg.width (c :: r) ≤ inner := by
      intro hle
      have : cfg.width [c] ≤ cfg.width ([c] ++ r) := hmono [c] r
      simp only [List.singleton_append] at this
      omega
    have hnone : hyphenSplitOnce cfg inner useHyph (c :: r) = (none, c :: r) := by
      rcases hyphenSplitOnce_spec cfg inner useHyph (c :: r) horacle (by simp) hshy hsp with
        heq | ⟨p, rest, heq, hpne, hrne, hsum, hps, hpsp, hrs, hrsp, hpw⟩
      · exact heq
      · exfalso
        rcases hp : p with _ | ⟨c0, p0⟩
        · exact hpne hp
        have hc0 : c0 ∈ c :: r := by
          rw [← hsum, hp]
          exact List.mem_append_left _ (List.mem_cons_self c0 p0)
        have h1 : cfg.width [c0] ≤ cfg.width ([c0] ++ (p0 ++ ['-'])) := hmono [c0] _
        have h2 : [c0] ++ (p0 ++ ['-']) = p ++ ['-'] := by
          rw [hp]; simp
        rw [h2] at h1
        have := hchars c0 hc0
        omega
    have hrej : ∀ m : Nat, 1 ≤ m → ¬ (cfg.width ((c :: r).take m ++ ['-']) ≤ inner) := by
      intro m hm hle
      have htk : (c :: r).take m = c :: r.take (m - 1) := by
        rcases hm' : m with _ | m'
        · omega
        · simp [List.take_succ_cons]
      have h1 : cfg.width [c] ≤ cfg.width ([c] ++ (r.take (m - 1) ++ ['-'])) := hmono [c] _
      have h2 : [c] ++ (r.take (m - 1) ++ ['-']) = (c :: r).take m ++ ['-'] := by
        rw [htk]; simp
      rw [h2] at h1
      omega
    have hb0 : ∀ lim : Nat, bsearchFit cfg.width inner (c :: r) 1 (lim : Int) 0 = 0 := by
      intro lim
      exact bsearchFit_none cfg.width inner (c :: r) hrej ((lim : Int) + 1 - 1).toNat
        1 (lim : Int) (le_refl _) (le_refl _)
    have hcf : chunkFit cfg inner hardChunk (c :: r) = 1 := by
      simp [chunkFit, hb0]
    have hstep : splitTokenAux cfg inner useHyph hardChunk (f + 1) (c :: r) =
        ((c :: r).take 1 ++ [shy]) ::
          splitTokenAux cfg inner useHyph hardChunk f ((c :: r).drop 1) := by
      simp only [splitTokenAux, if_neg hfits, hnone, hcf]
    rw [hstep]
    have ht1 : (c :: r).take 1 = [c] := by simp
    have hd1 : (c :: r).drop 1 = r := by simp
    rw [ht1, hd1, ihr f (by simp at hfuel ⊢; omega)
      (fun h => hshy (List.mem_cons_of_mem c h))
      (fun h => hsp (List.mem_cons_of_mem c h))
      (fun ch h => hchars ch (List.mem_cons_of_mem c h))]
    rfl

lemma wrapStepPiece_nil_current (cfg : WrapCfg) (inner : Nat) (L : List Str)
    (n : Nat) (piece : Str) :
    wrapStepPiece cfg inner (L, []) (n, piece) =
      if piece.getLast? = some shy then (L ++ [piece], []) else (L, piece) := by
  simp [wrapStepPiece]

lemma pieceFold_chain (cfg : WrapCfg) (inner : Nat) :
    ∀ (qs : List Str) (L : List Str) (n : Nat) (last : Str),
    last.getLast? ≠ some shy →
    ((qs.map (fun q => q ++ [shy]) ++ [last]).enumFrom n).foldl (wrapStepPiece cfg inner) (L, [])
      = (L ++ qs.map (fun q => q ++ [shy]), last) := by
  intro qs
  induction qs with
  | nil =>
    intro L n last hlast
    simp only [List.map_nil, List.nil_append, List.enumFrom, List.foldl]
    rw [wrapStepPiece_nil_current, if_neg hlast]
    simp
  | cons q qs ih =>
    intro L n last hlast
    simp only [List.map_cons, List.cons_append, List.enumFrom, List.foldl]
    rw [wrapStepPiece_nil_current, if_pos (by simp : (q ++ [shy]).getLast? = some shy)]
    simp only [List.append_eq]
    rw [ih (L ++ [q ++ [shy]]) (n + 1) last hlast]
    simp

lemma pieceFold_allshy (cfg : WrapCfg) (inner : Nat) :
    ∀ (ps : List Str) (L : List Str) (n : Nat),
    (∀ p ∈ ps, p.getLast? = some shy) →
    (ps.enumFrom n).foldl (wrapStepPiece cfg inner) (L, []) = (L ++ ps, []) := by
  intro ps
  induction ps with
  | nil => intro L n _; simp [List.enumFrom]
  | cons p ps ih =>
    intro L n hps
    simp only [List.enumFrom, List.foldl]
    rw [wrapStepPiece_nil_current, if_pos (hps p (List.mem_cons_self p ps))]
    rw [ih (L ++ [p]) (n + 1) (fun p' h' => hps p' (List.mem_cons_of_mem p h'))]
    simp

lemma stOk_close (cfg : WrapCfg) (inner : Nat) (st : List Str × Str)
    (h : StOk cfg inner st) :
    (∀ l ∈ closeWrap st, LineOk l ∧ cfg.width (stripShy l) ≤ inner) ∧
    NoTrailGlue (closeWrap st) := by
  obtain ⟨hW, hC, hG⟩ := h
  unfold closeWrap
  by_cases hc : st.2 = []
  · rw [if_neg (by simp [hc])]
    exact ⟨hW, hG hc⟩
  · rw [if_pos hc]
    obtain ⟨hw, hh, hs⟩ := hC hc
    constructor
    · intro l hl
      rcases List.mem_append.mp hl with hl | hl
      · exact hW l hl
      · rw [List.mem_singleton.mp hl]
        exact ⟨lineOk_of_parts st.2 hc hh hs, by rw [stripShy_eq_self st.2 hs]; exact hw⟩
    · intro l hl
      rw [List.getLast?_concat] at hl
      cases hl
      exact getLast?_ne_shy_of_not_mem st.2 hs

lemma wrapPieces_spec (cfg : WrapCfg) (inner : Nat) (useHyph : Bool) (hardChunk : Option Nat)
    (hmono : ∀ s t : Str, cfg.width s ≤ cfg.width (s ++ t)) (horacle : OracleSane cfg)
    (Lone : List Str) (tk : Str)
    (hL : ∀ l ∈ Lone, LineOk l ∧ cfg.width (stripShy l) ≤ inner) (hsafe : NoTrailGlue Lone)
    (htshy : shy ∉ tk) (htsp : ' ' ∉ tk) (htch : ∀ c ∈ tk, cfg.width [c] ≤ inner) :
    StOk cfg inner ((splitToken cfg inner useHyph hardChunk tk).enum.foldl
      (wrapStepPiece cfg inner) (Lone, [])) ∧
    glueWords (closeWrap ((splitToken cfg inner useHyph hardChunk tk).enum.foldl
      (wrapStepPiece cfg inner) (Lone, [])))
      = glueWords Lone ++ (if tk = [] then [] else [tk]) := by
  by_cases htk : tk = []
  · subst htk
    have hpieces : splitToken cfg inner useHyph hardChunk [] = [] := rfl
    rw [hpieces]
    simp only [List.enum, List.enumFrom, List.foldl]
    refine ⟨⟨hL, by simp, fun _ => hsafe⟩, ?_⟩
    simp [closeWrap]
  · obtain ⟨qs, last, heq, hsum, hqs, hlne, hls, hlsp, hlw⟩ :=
      splitToken_spec cfg inner useHyph hardChunk hmono horacle tk htk htshy htsp htch
    rw [heq]
    have hfold := pieceFold_chain cfg inner qs Lone 0 last (getLast?_ne_shy_of_not_mem last hls)
    rw [List.enum, hfold]
    have hlok : ∀ l ∈ Lone ++ qs.map (fun q => q ++ [shy]),
        LineOk l ∧ cfg.width (stripShy l) ≤ inner := by
      intro l hl
      rcases List.mem_append.mp hl with hl | hl
      · exact hL l hl
      · rcases List.mem_map.mp hl with ⟨q, hq, rfl⟩
        obtain ⟨hqne, hqs', hqsp, hqw⟩ := hqs q hq
        have hstr : stripShy (q ++ [shy]) = q := by
          rw [stripShy_concat_shy, stripShy_eq_self q hqs']
        refine ⟨⟨?_, ?_, by simp, Or.inr ⟨q, rfl, hqs'⟩, ?_⟩, ?_⟩
        · rw [hstr]; exact hqne
        · rw [headI_append_of_ne_nil q _ hqne]
          exact headI_ne_of_not_mem q ' ' hqne hqsp
        · intro _
          have : (q ++ [shy]).dropLast = q := by simp
          rw [this]
          exact hqsp
        · rw [hstr]; exact hqw
    constructor
    · refine ⟨hlok, ?_, by simp [hlne]⟩
      intro _
      exact ⟨hlw, headI_ne_of_not_mem last ' ' hlne hlsp, hls⟩
    · have hclose : closeWrap (Lone ++ qs.map (fun q => q ++ [shy]), last)
          = Lone ++ (qs.map (fun q => q ++ [shy]) ++ [last]) := by
        simp [closeWrap, hlne]
      rw [hclose]
      rw [glueWords_append_safe Lone _ (fun l hl => (hL l hl).1) hsafe]
      rw [glueWords_pieces qs last (fun q hq => ⟨(hqs q hq).1, (hqs q hq).2.1, (hqs q hq).2.2.1⟩)
        hlne hls hlsp]
      rw [hsum, if_neg htk]

lemma wrapStep_spec (cfg : WrapCfg) (inner : Nat) (useHyph : Bool) (hardChunk : Option Nat)
    (hmono : ∀ s t : Str, cfg.width s ≤ cfg.width (s ++ t)) (horacle : OracleSane cfg)
    (st : List Str × Str) (tk : Str)
    (hst : StOk cfg inner st) (htshy : shy ∉ tk) (htsp : ' ' ∉ tk)
    (htch : ∀ c ∈ tk, cfg.width [c] ≤ inner) :
    StOk cfg inner (wrapStepToken cfg inner useHyph hardChunk st tk) ∧
    glueWords (closeWrap (wrapStepToken cfg inner useHyph hardChunk st tk))
      = glueWords (closeWrap st) ++ (if tk = [] then [] else [tk]) := by
  obtain ⟨hW, hC, hG⟩ := hst
  rcases st with ⟨L, cur⟩
  simp only at hW hC hG
  have hcl := stOk_close cfg inner (L, cur) ⟨hW, hC, hG⟩
  rcases hcurs : cur with _ | ⟨c0, cur0⟩
  · -- current is empty: straight to the piece loop with lines unchanged
    have hres : wrapStepToken cfg inner useHyph hardChunk (L, []) tk
        = (splitToken cfg inner useHyph hardChunk tk).enum.foldl
            (wrapStepPiece cfg inner) (L, []) := by
      simp [wrapStepToken]
    rw [hres]
    have hclose0 : closeWrap (L, ([] : Str)) = L := by simp [closeWrap]
    subst hcurs
    rw [hclose0] at hcl
    have := wrapPieces_spec cfg inner useHyph hardChunk hmono horacle L tk hcl.1 hcl.2
      htshy htsp htch
    rw [hclose0]
    exact this
  · -- current is nonempty
    subst hcurs
    set cur := c0 :: cur0 with hcur
    have hcne : cur ≠ [] := by simp [hcur]
    obtain ⟨hwc, hhc, hsc⟩ := hC hcne
    by_cases hfit : cfg.width (cur ++ [' '] ++ tk) ≤ inner
    · -- token fits on the current line
      have hres : wrapStepToken cfg inner useHyph hardChunk (L, cur) tk
          = (L, cur ++ [' '] ++ tk) := by
        simp only [wrapStepToken, if_pos hcne]
        rw [if_pos ⟨hcne, by simpa [hcur] using hfit⟩]
      rw [hres]
      constructor
      · refine ⟨hW, ?_, by simp [hcur]⟩
        intro _
        refine ⟨hfit, ?_, ?_⟩
        · rw [List.append_assoc, headI_append_of_ne_nil cur _ hcne]
          exact hhc
        · intro hmem
          rcases List.mem_append.mp hmem with hmem | hmem
          · rcases List.mem_append.mp hmem with hmem | hmem
            · exact hsc hmem
            · rcases List.mem_singleton.mp hmem with h
              exact absurd h.symm (by decide : (' ' : Char) ≠ shy)
          · exact htshy hmem
      · have h1 : closeWrap (L, cur ++ [' '] ++ tk) = L ++ [cur ++ [' '] ++ tk] := by
          simp [closeWrap]
        have h2 : closeWrap (L, cur) = L ++ [cur] := by
          simp [closeWrap, hcur]
        rw [h1, h2]
        have h3 : cur ++ [' '] ++ tk = cur ++ ' ' :: tk := by simp
        rw [h3]
        exact glueWords_lastext L cur tk (fun l hl => (hW l hl).1) hcne hhc hsc htshy htsp
    · -- current flushed, then the piece loop
      have hres : wrapStepToken cfg inner useHyph hardChunk (L, cur) tk
          = (splitToken cfg inner useHyph hardChunk tk).enum.foldl
              (wrapStepPiece cfg inner) (L ++ [cur], []) := by
        simp only [wrapStepToken, if_pos hcne]
        rw [if_neg (by
          intro hand
          exact hfit (by simpa [hcur] using hand.2))]
      rw [hres]
      have hclose1 : closeWrap (L, cur) = L ++ [cur] := by simp [closeWrap, hcur]
      rw [hclose1] at hcl
      have := wrapPieces_spec cfg inner useHyph hardChunk hmono horacle (L ++ [cur]) tk
        hcl.1 hcl.2 htshy htsp htch
      rw [hclose1]
      exact this

lemma wrapFold_spec (cfg : WrapCfg) (inner : Nat) (useHyph : Bool) (hardChunk : Option Nat)
    (hmono : ∀ s t : Str, cfg.width s ≤ cfg.width (s ++ t)) (horacle : OracleSane cfg) :
    ∀ (tokens : List Str) (st : List Str × Str), StOk cfg inner st →
    (∀ tk ∈ tokens, shy ∉ tk ∧ ' ' ∉ tk ∧ ∀ c ∈ tk, cfg.width [c] ≤ inner) →
    StOk cfg inner (tokens.foldl (wrapStepToken cfg inner useHyph hardChunk) st) ∧
    glueWords (closeWrap (tokens.foldl (wrapStepToken cfg inner useHyph hardChunk) st))
      = glueWords (closeWrap st) ++ tokens.filter (fun w => w ≠ []) := by
  intro tokens
  induction tokens with
  | nil =>
    intro st hst _
    exact ⟨hst, by simp⟩
  | cons tk rest ih =>
    intro st hst htoks
    obtain ⟨htshy, htsp, htch⟩ := htoks tk (List.mem_cons_self tk rest)
    obtain ⟨hst', hw'⟩ := wrapStep_spec cfg inner useHyph hardChunk hmono horacle st tk
      hst htshy htsp htch
    obtain ⟨hst'', hw''⟩ := ih (wrapStepToken cfg inner useHyph hardChunk st tk) hst'
      (fun tk' h' => htoks tk' (List.mem_cons_of_mem tk h'))
    refine ⟨hst'', ?_⟩
    simp only [List.foldl_cons] at *
    rw [hw'', hw', List.filter_cons]
    by_cases htk : tk = []
    · simp [htk]
    · simp [htk]

lemma widthLen_mono (s t : Str) : widthLen s ≤ widthLen (s ++ t) := by
  simp [widthLen]

lemma oracleSane_none (cfg : WrapCfg) (h : cfg.inserted? = none) : OracleSane cfg := by
  intro ins hins
  rw [h] at hins
  cases hins

lemma wordsOf_ne_nil_of_char (text : Str) (c : Char) (hc : c ∈ text) (hcs : c ≠ ' ') :
    wordsOf text ≠ [] := by
  induction text with
  | nil => simp at hc
  | cons d rest ih =>
    unfold wordsOf
    simp only [splitOnChar]
    by_cases hd : d = ' '
    · rw [if_pos hd, List.filter_cons]
      have : ¬ (d :: rest = d :: rest ∧ False) := by simp
      simp only [ne_eq, decide_not]
      rcases List.mem_cons.mp hc with h1 | h1
      · exact absurd (h1 ▸ hd) hcs
      · have := ih h1
        unfold wordsOf at this
        simpa using this
    · rw [if_neg hd]
      rcases h : splitOnChar ' ' rest with _ | ⟨t, ts⟩
      · exact absurd h (splitOnChar_ne_nil ' ' rest)
      · rw [consHead, List.filter_cons]
        simp

/-- Claim C1 (amended): for a prefix-monotone measurement, a sane hyphenation
oracle, a marker-free text and an inner width at least every character's
measured width, `wrap_text` emits lines whose marker-stripped width fits the
(clamped) inner width, re-joining the lines recovers the original word
sequence exactly, and the result is nonempty whenever the text is empty or
contains at least one word; a nonempty all-space text, however, yields an
empty line list (see the counterexample). -/
theorem C1_amended (cfg : WrapCfg) (text : Str) (maxWidth : Int) (hardChunk : Option Nat)
    (hmono : ∀ s t : Str, cfg.width s ≤ cfg.width (s ++ t))
    (horacle : OracleSane cfg)
    (hzero : cfg.width [] = 0)
    (hshy : shy ∉ text)
    (hchars : ∀ c ∈ text, cfg.width [c] ≤ (max 1 maxWidth).toNat) :
    (∀ l ∈ wrapText cfg text maxWidth hardChunk,
      cfg.width (stripShy l) ≤ (max 1 maxWidth).toNat) ∧
    wordsOf (rejoin (wrapText cfg text maxWidth hardChunk)) = wordsOf text ∧
    (wordsOf text ≠ [] → wrapText cfg text maxWidth hardChunk ≠ []) ∧
    (text = [] → wrapText cfg text maxWidth hardChunk = [[]]) := by
  by_cases htext : text = []
  · subst htext
    have hres : wrapText cfg [] maxWidth hardChunk = [[]] := rfl
    rw [hres]
    refine ⟨?_, by simp [rejoin, wordsOf_nil], by simp [wordsOf_nil], fun _ => rfl⟩
    intro l hl
    rw [List.mem_singleton.mp hl]
    have h1 : stripShy [] = [] := rfl
    rw [h1, hzero]
    exact Nat.zero_le _
  · set inner := (max 1 maxWidth).toNat with hinner
    set useHyph := hcTruthy hardChunk && cfg.hyphHeaders && cfg.inserted?.isSome with huse
    have hres : wrapText cfg text maxWidth hardChunk =
        closeWrap ((splitOnChar ' ' text).foldl
          (wrapStepToken cfg inner useHyph hardChunk) ([], [])) := by
      unfold wrapText closeWrap
      rw [if_neg htext]
    have hst0 : StOk cfg inner ([], []) := by
      refine ⟨by simp, by simp, ?_⟩
      intro _ l hl
      simp at hl
    have htoks : ∀ tk ∈ splitOnChar ' ' text,
        shy ∉ tk ∧ ' ' ∉ tk ∧ ∀ c ∈ tk, cfg.width [c] ≤ inner := by
      intro tk htk
      refine ⟨?_, mem_splitOnChar_not_sep ' ' text tk htk, ?_⟩
      · intro hmem
        exact hshy (mem_of_mem_splitOnChar ' ' text tk htk shy hmem)
      · intro c hc
        exact hchars c (mem_of_mem_splitOnChar ' ' text tk htk c hc)
    obtain ⟨hstF, hwF⟩ := wrapFold_spec cfg inner useHyph hardChunk hmono horacle
      (splitOnChar ' ' text) ([], []) hst0 htoks
    have hclose0 : closeWrap (([] : List Str), ([] : Str)) = [] := by simp [closeWrap]
    rw [hclose0] at hwF
    have hglue : glueWords (closeWrap ((splitOnChar ' ' text).foldl
        (wrapStepToken cfg inner useHyph hardChunk) ([], []))) = wordsOf text := by
      rw [hwF]
      simp [wordsOf, glueWords]
    have hclok := stOk_close cfg inner _ hstF
    refine ⟨?_, ?_, ?_, fun h => absurd h htext⟩
    · intro l hl
      rw [hres] at hl
      exact (hclok.1 l hl).2
    · rw [hres, wordsOf_rejoin _ (fun l hl => (hclok.1 l hl).1), hglue]
    · intro hw habs
      rw [hres] at habs
      rw [habs] at hglue
      exact hw (by rw [← hglue]; rfl)

/-- Claim C1 counterexample: the claim asserts a nonempty line sequence for
every input, but on the all-space input `" "` (with any inner width at least
the space character's measured width) `wrap_text` returns the empty list. -/
theorem C1_cex : wrapText wcfg0 [' '] 100 none = [] ∧
    widthLen [' '] ≤ (max 1 (100 : Int)).toNat := by
  constructor
  · rfl
  · decide

/-- Claim C1 witness: the amended theorem instantiated at the text `"ab a"`
with a ten-pixels-per-character measurement and inner width 25. -/
theorem C1_witness :
    (∀ l ∈ wrapText wcfg0 ['a', 'b', ' ', 'a'] 25 none,
      wcfg0.width (stripShy l) ≤ (max 1 (25 : Int)).toNat) ∧
    wordsOf (rejoin (wrapText wcfg0 ['a', 'b', ' ', 'a'] 25 none))
      = wordsOf ['a', 'b', ' ', 'a'] ∧
    (wordsOf ['a', 'b', ' ', 'a'] ≠ [] → wrapText wcfg0 ['a', 'b', ' ', 'a'] 25 none ≠ []) ∧
    (['a', 'b', ' ', 'a'] = ([] : Str) → wrapText wcfg0 ['a', 'b', ' ', 'a'] 25 none = [[]]) :=
  C1_amended wcfg0 ['a', 'b', ' ', 'a'] 25 none
    (fun s t => widthLen_mono s t) (oracleSane_none wcfg0 rfl) rfl
    (by decide) (by decide)

/-- Claim C5: with an inner width smaller than every character's measured
width (and a prefix-monotone measurement, sane oracle, marker- and
space-free token), wrapping a single token of length N terminates after
exactly N one-character-per-iteration splits: the result is the N lines
`[c, soft-hyphen]`, one per character, each holding exactly one character
once the marker is ignored. -/
theorem C5_tiny_width (cfg : WrapCfg) (token : Str) (maxWidth : Int) (hardChunk : Option Nat)
    (hmono : ∀ s t : Str, cfg.width s ≤ cfg.width (s ++ t))
    (horacle : OracleSane cfg)
    (hne : token ≠ []) (hshy : shy ∉ token) (hsp : ' ' ∉ token)
    (hbig : ∀ c ∈ token, (max 1 maxWidth).toNat < cfg.width [c]) :
    wrapText cfg token maxWidth hardChunk = token.map (fun c => [c, shy]) ∧
    (wrapText cfg token maxWidth hardChunk).length = token.length ∧
    ∀ l ∈ wrapText cfg token maxWidth hardChunk, (stripShy l).length = 1 := by
  set inner := (max 1 maxWidth).toNat with hinner
  set useHyph := hcTruthy hardChunk && cfg.hyphHeaders && cfg.inserted?.isSome with huse
  have hres : wrapText cfg token maxWidth hardChunk =
      closeWrap ((splitOnChar ' ' token).foldl
        (wrapStepToken cfg inner useHyph hardChunk) ([], [])) := by
    unfold wrapText closeWrap
    rw [if_neg hne]
  have hsingle : splitOnChar ' ' token = [token] := splitOnChar_sep_free ' ' token hsp
  have hmain : wrapText cfg token maxWidth hardChunk = token.map (fun c => [c, shy]) := by
    rw [hres, hsingle]
    simp only [List.foldl_cons, List.foldl_nil]
    have hstep : wrapStepToken cfg inner useHyph hardChunk ([], []) token
        = (splitToken cfg inner useHyph hardChunk token).enum.foldl
            (wrapStepPiece cfg inner) ([], []) := by
      simp [wrapStepToken]
    rw [hstep]
    have hpieces : splitToken cfg inner useHyph hardChunk token
        = token.map (fun c => [c, shy]) :=
      splitTokenAux_tiny cfg inner useHyph hardChunk hmono horacle token
        (token.length + 1) (by omega) hshy hsp hbig
    rw [hpieces, List.enum]
    rw [pieceFold_allshy cfg inner _ [] 0 ?hall]
    case hall =>
      intro p hp
      rcases List.mem_map.mp hp with ⟨c, _, rfl⟩
      rfl
    simp [closeWrap]
  refine ⟨hmain, by rw [hmain]; simp, ?_⟩
  intro l hl
  rw [hmain] at hl
  rcases List.mem_map.mp hl with ⟨c, hc, rfl⟩
  have hcs : c ≠ shy := fun h => hshy (h ▸ hc)
  simp [stripShy, hcs]

/-- Claim C5 witness: the token `"abc"` with ten-pixels-per-character
measurement and a width budget of 5 pixels splits into the three
one-character lines `a­`, `b­`, `c­`. -/
theorem C5_witness :
    wrapText wcfg0 ['a', 'b', 'c'] 5 none = ['a', 'b', 'c'].map (fun c => [c, shy]) ∧
    (wrapText wcfg0 ['a', 'b', 'c'] 5 none).length = (['a', 'b', 'c'] : Str).length ∧
    ∀ l ∈ wrapText wcfg0 ['a', 'b', 'c'] 5 none, (stripShy l).length = 1 :=
  C5_tiny_width wcfg0 ['a', 'b', 'c'] 5 none (fun s t => widthLen_mono s t)
    (oracleSane_none wcfg0 rfl) (by decide) (by decide) (by decide) (by decide)

lemma hyphenSplitOnce_some_ne (cfg : WrapCfg) (inner : Nat) (useHyph : Bool)
    (token p rest : Str) (h : hyphenSplitOnce cfg inner useHyph token = (some p, rest)) :
    p ≠ [] := by
  unfold hyphenSplitOnce at h
  by_cases h1 : useHyph = false ∨ token = []
  · rw [if_pos h1] at h
    cases h
  · rw [if_neg h1] at h
    rcases hins : cfg.inserted? with _ | ins
    · rw [hins] at h
      cases h
    · rw [hins] at h
      simp only at h
      by_cases h2 : (splitOnChar shy (if ins token = [] then token else ins token)).length ≤ 1
      · rw [if_pos h2] at h
        cases h
      · rw [if_neg h2] at h
        rcases hscan : hyphScan cfg.width inner [] 0
            (splitOnChar shy (if ins token = [] then token else ins token)).dropLast
          with ⟨pr, consumed⟩
        rw [hscan] at h
        simp only at h
        by_cases h3 : 0 < consumed
        · rw [if_pos h3] at h
          have := congrArg Prod.fst h
          simp only at this
          cases this
          simp
        · rw [if_neg h3] at h
          cases h

lemma splitTokenAux_mem_ne_nil (cfg : WrapCfg) (inner : Nat) (useHyph : Bool)
    (hardChunk : Option Nat) :
    ∀ (fuel : Nat) (rem : Str), ∀ p ∈ splitTokenAux cfg inner useHyph hardChunk fuel rem,
      p ≠ [] := by
  intro fuel
  induction fuel with
  | zero =>
    intro rem p hp
    cases rem <;> simp [splitTokenAux] at hp
  | succ f ih =>
    intro rem p hp
    rcases rem with _ | ⟨c, r⟩
    · simp [splitTokenAux] at hp
    by_cases hfits : cfg.width (c :: r) ≤ inner
    · simp only [splitTokenAux, if_pos hfits, List.mem_singleton] at hp
      subst hp
      simp
    · rcases hhs : hyphenSplitOnce cfg inner useHyph (c :: r) with ⟨op, rest⟩
      rcases op with _ | pf
      · simp only [splitTokenAux, if_neg hfits, hhs, List.mem_cons] at hp
        rcases hp with hp | hp
        · subst hp; simp
        · exact ih _ p hp
      · simp only [splitTokenAux, if_neg hfits, hhs, List.mem_cons] at hp
        rcases hp with hp | hp
        · subst hp
          exact hyphenSplitOnce_some_ne cfg inner useHyph (c :: r) p rest hhs
        · exact ih _ p hp

lemma splitToken_ne_nil (cfg : WrapCfg) (inner : Nat) (useHyph : Bool)
    (hardChunk : Option Nat) (token : Str) (hne : token ≠ []) :
    splitToken cfg inner useHyph hardChunk token ≠ [] := by
  rcases token with _ | ⟨c, r⟩
  · exact absurd rfl hne
  unfold splitToken
  have hlen : (c :: r).length + 1 = (c :: r).length + 1 := rfl
  by_cases hfits : cfg.width (c :: r) ≤ inner
  · simp [splitTokenAux, if_pos hfits]
  · rcases hhs : hyphenSplitOnce cfg inner useHyph (c :: r) with ⟨op, rest⟩
    rcases op with _ | pf
    · simp [splitTokenAux, if_neg hfits, hhs]
    · simp [splitTokenAux, if_neg hfits, hhs]

lemma wrapStepPiece_size (cfg : WrapCfg) (inner : Nat) (st : List Str × Str)
    (n : Nat) (p : Str) (hp : p ≠ []) :
    stSize st ≤ stSize (wrapStepPiece cfg inner st (n, p)) := by
  rcases st with ⟨L, cur⟩
  by_cases hc : cur = [] <;>
    simp only [wrapStepPiece, stSize, hc] <;>
    split_ifs <;>
    simp_all

lemma pieceFold_size (cfg : WrapCfg) (inner : Nat) :
    ∀ (ips : List (Nat × Str)) (st : List Str × Str), (∀ ip ∈ ips, ip.2 ≠ []) →
    stSize st ≤ stSize (ips.foldl (wrapStepPiece cfg inner) st) := by
  intro ips
  induction ips with
  | nil => intro st _; exact le_refl _
  | cons ip rest ih =>
    intro st hps
    rcases ip with ⟨n, p⟩
    calc stSize st ≤ stSize (wrapStepPiece cfg inner st (n, p)) :=
          wrapStepPiece_size cfg inner st n p (hps (n, p) (List.mem_cons_self _ _))
      _ ≤ _ := ih _ (fun ip' h' => hps ip' (List.mem_cons_of_mem _ h'))

lemma enum_snd_mem (l : List Str) : ∀ n, ∀ ip ∈ l.enumFrom n, ip.2 ∈ l := by
  induction l with
  | nil => intro n ip h; simp [List.enumFrom] at h
  | cons x xs ih =>
    intro n ip h
    simp only [List.enumFrom, List.mem_cons] at h
    rcases h with h | h
    · subst h; exact List.mem_cons_self x xs
    · exact List.mem_cons_of_mem x (ih (n + 1) ip h)

lemma wrapStepToken_size (cfg : WrapCfg) (inner : Nat) (useHyph : Bool)
    (hardChunk : Option Nat) (st : List Str × Str) (tk : Str) :
    stSize st ≤ stSize (wrapStepToken cfg inner useHyph hardChunk st tk) ∧
    (tk ≠ [] → 1 ≤ stSize (wrapStepToken cfg inner useHyph hardChunk st tk)) := by
  rcases st with ⟨L, cur⟩
  have hmem : ∀ ip ∈ (splitToken cfg inner useHyph hardChunk tk).enum, ip.2 ≠ [] := by
    intro ip hip
    exact splitTokenAux_mem_ne_nil cfg inner useHyph hardChunk _ tk ip.2
      (enum_snd_mem _ 0 ip hip)
  by_cases hc : cur = []
  · subst hc
    have hres : wrapStepToken cfg inner useHyph hardChunk (L, []) tk
        = (splitToken cfg inner useHyph hardChunk tk).enum.foldl
            (wrapStepPiece cfg inner) (L, []) := by
      simp [wrapStepToken]
    rw [hres]
    constructor
    · exact pieceFold_size cfg inner _ (L, []) hmem
    · intro htk
      rcases hps : splitToken cfg inner useHyph hardChunk tk with _ | ⟨p0, prest⟩
      · exact absurd hps (splitToken_ne_nil cfg inner useHyph hardChunk tk htk)
      · have hall : ∀ p ∈ p0 :: prest, p ≠ [] := by
          intro p hp
          refine splitTokenAux_mem_ne_nil cfg inner useHyph hardChunk (tk.length + 1) tk p ?_
          rw [show splitTokenAux cfg inner useHyph hardChunk (tk.length + 1) tk
            = p0 :: prest from hps]
          exact hp
        have hp0 : p0 ≠ [] := hall p0 (List.mem_cons_self _ _)
        rw [List.enum]
        simp only [List.enumFrom, List.foldl]
        calc 1 ≤ stSize (wrapStepPiece cfg inner (L, []) (0, p0)) := by
              rw [wrapStepPiece_nil_current]
              split <;> simp [stSize, hp0]
          _ ≤ _ := pieceFold_size cfg inner _ _ (fun ip hip =>
              hall ip.2 (List.mem_cons_of_mem p0 (enum_snd_mem prest 1 ip hip)))
  · by_cases hfit : cfg.width (cur ++ [' '] ++ tk) ≤ inner
    · have hres : wrapStepToken cfg inner useHyph hardChunk (L, cur) tk
          = (L, cur ++ [' '] ++ tk) := by
        simp only [wrapStepToken, if_pos hc]
        rw [if_pos ⟨hc, by simpa using hfit⟩]
      rw [hres]
      constructor
      · simp [stSize, hc]
      · intro _
        simp [stSize]
    · have hres : wrapStepToken cfg inner useHyph hardChunk (L, cur) tk
          = (splitToken cfg inner useHyph hardChunk tk).enum.foldl
              (wrapStepPiece cfg inner) (L ++ [cur], []) := by
        simp only [wrapStepToken, if_pos hc]
        rw [if_neg (by
          intro hand
          exact hfit (by simpa using hand.2))]
      rw [hres]
      have hbase : stSize (L, cur) ≤ stSize ((L ++ [cur], []) : List Str × Str) := by
        simp [stSize, hc]
      constructor
      · exact le_trans hbase (pieceFold_size cfg inner _ _ hmem)
      · intro _
        have h1 : 1 ≤ stSize ((L ++ [cur], []) : List Str × Str) := by
          simp [stSize]
        exact le_trans h1 (pieceFold_size cfg inner _ _ hmem)

lemma tokenFold_size (cfg : WrapCfg) (inner : Nat) (useHyph : Bool) (hardChunk : Option Nat) :
    ∀ (tokens : List Str) (st : List Str × Str),
    stSize st ≤ stSize (tokens.foldl (wrapStepToken cfg inner useHyph hardChunk) st) ∧
    ((∃ tk ∈ tokens, tk ≠ []) →
      1 ≤ stSize (tokens.foldl (wrapStepToken cfg inner useHyph hardChunk) st)) := by
  intro tokens
  induction tokens with
  | nil =>
    intro st
    exact ⟨le_refl _, by rintro ⟨tk, h, _⟩; simp at h⟩
  | cons tk rest ih =>
    intro st
    obtain ⟨hm1, hm2⟩ := wrapStepToken_size cfg inner useHyph hardChunk st tk
    obtain ⟨hr1, hr2⟩ := ih (wrapStepToken cfg inner useHyph hardChunk st tk)
    simp only [List.foldl_cons]
    refine ⟨le_trans hm1 hr1, ?_⟩
    rintro ⟨tk', htk', hne'⟩
    rcases List.mem_cons.mp htk' with h | h
    · subst h
      exact le_trans (hm2 hne') hr1
    · exact hr2 ⟨tk', h, hne'⟩

lemma mem_splitOnChar_exists (sep : Char) (s : Str) (c : Char) (hc : c ∈ s) (hcs : c ≠ sep) :
    ∃ w ∈ splitOnChar sep s, c ∈ w := by
  induction s with
  | nil => simp at hc
  | cons d rest ih =>
    simp only [splitOnChar]
    by_cases hd : d = sep
    · rw [if_pos hd]
      rcases List.mem_cons.mp hc with h | h
      · exact absurd (h ▸ hd) hcs
      · rcases ih h with ⟨w, hw, hcw⟩
        exact ⟨w, List.mem_cons_of_mem _ hw, hcw⟩
    · rw [if_neg hd]
      rcases hsp : splitOnChar sep rest with _ | ⟨t, ts⟩
      · exact absurd hsp (splitOnChar_ne_nil sep rest)
      · rcases List.mem_cons.mp hc with h | h
        · exact ⟨d :: t, by simp [consHead], h ▸ List.mem_cons_self _ _⟩
        · rcases ih h with ⟨w, hw, hcw⟩
          rw [hsp] at hw
          rcases List.mem_cons.mp hw with h1 | h1
          · exact ⟨d :: t, by simp [consHead], h1 ▸ List.mem_cons_of_mem d hcw⟩
          · exact ⟨w, by simp [consHead, h1], hcw⟩

lemma closeWrap_ne_nil (st : List Str × Str) (h : 1 ≤ stSize st) : closeWrap st ≠ [] := by
  rcases st with ⟨L, cur⟩
  by_cases hc : cur = []
  · subst hc
    have heq : closeWrap (L, ([] : Str)) = L := by simp [closeWrap]
    rw [heq]
    exact List.ne_nil_of_length_pos (by simpa [stSize] using h)
  · simp [closeWrap, hc]

lemma hyphenSplitOnce_off (cfg : WrapCfg) (inner : Nat) (token : Str) :
    hyphenSplitOnce cfg inner false token = (none, token) := by
  unfold hyphenSplitOnce
  rw [if_pos (Or.inl rfl)]

lemma splitTokenAux_binary_recon (cfg : WrapCfg) (inner : Nat) (hardChunk : Option Nat) :
    ∀ (fuel : Nat) (rem : Str), rem.length < fuel → shy ∉ rem →
    ((splitTokenAux cfg inner false hardChunk fuel rem).map stripShy).flatten = rem ∧
    ∀ p ∈ splitTokenAux cfg inner false hardChunk fuel rem, stripShy p ≠ [] := by
  intro fuel
  induction fuel with
  | zero =>
    intro rem hf _
    omega
  | succ f ih =>
    intro rem hf hshy
    rcases rem with _ | ⟨c, r⟩
    · exact ⟨rfl, by simp [splitTokenAux]⟩
    by_cases hfits : cfg.width (c :: r) ≤ inner
    · rw [show splitTokenAux cfg inner false hardChunk (f + 1) (c :: r) = [c :: r] by
        simp [splitTokenAux, if_pos hfits]]
      refine ⟨?_, ?_⟩
      · simp [stripShy_eq_self _ hshy]
      · intro p hp
        rw [List.mem_singleton.mp hp, stripShy_eq_self _ hshy]
        simp
    · set fit := chunkFit cfg inner hardChunk (c :: r) with hfitdef
      have hfit1 : 1 ≤ fit := chunkFit_pos cfg inner hardChunk (c :: r)
      have hstep : splitTokenAux cfg inner false hardChunk (f + 1) (c :: r)
          = ((c :: r).take fit ++ [shy]) ::
              splitTokenAux cfg inner false hardChunk f ((c :: r).drop fit) := by
        simp only [splitTokenAux, if_neg hfits, hyphenSplitOnce_off]
      have hdrop : ((c :: r).drop fit).length < f := by
        have h1 := List.length_drop fit (c :: r)
        have h2 : (c :: r).length = r.length + 1 := by simp
        omega
      obtain ⟨ihf, ihm⟩ := ih ((c :: r).drop fit) hdrop
        (fun hmem => hshy (List.drop_subset fit (c :: r) hmem))
      rw [hstep]
      constructor
      · simp only [List.map_cons, List.flatten_cons, ihf]
        rw [stripShy_concat_shy, stripShy_eq_self _
          (fun hmem => hshy (List.take_subset fit (c :: r) hmem))]
        exact List.take_append_drop fit (c :: r)
      · intro p hp
        rcases List.mem_cons.mp hp with hp | hp
        · subst hp
          rw [stripShy_concat_shy, stripShy_eq_self _
            (fun hmem => hshy (List.take_subset fit (c :: r) hmem))]
          rw [ne_eq, List.take_eq_nil_iff]
          push_neg
          exact ⟨by omega, by simp⟩
        · exact ihm p hp

/-- Claim C10 (amended): `wrap_text` is total for every width budget,
clamping the budget to at least one pixel (wrapping at `max_width` and at
`max(1, max_width)` agree); empty input gives the single empty line; the
result is nonempty whenever the text contains a non-space character; and on
the hyphenation-free `split_token` path every emitted piece consumes at
least one character of the token and the pieces, markers stripped,
concatenate back to the token.  The claim's blanket "returns a nonempty
list" is false for nonempty all-space inputs (see the counterexample). -/
theorem C10_total (cfg : WrapCfg) (text : Str) (maxWidth : Int) (hardChunk : Option Nat) :
    wrapText cfg text maxWidth hardChunk = wrapText cfg text (max 1 maxWidth) hardChunk ∧
    (text = [] → wrapText cfg text maxWidth hardChunk = [[]]) ∧
    ((∃ c ∈ text, c ≠ ' ') → wrapText cfg text maxWidth hardChunk ≠ []) ∧
    (∀ token : Str, token ≠ [] → shy ∉ token →
      splitToken cfg (max 1 maxWidth).toNat false hardChunk token ≠ [] ∧
      (∀ p ∈ splitToken cfg (max 1 maxWidth).toNat false hardChunk token, stripShy p ≠ []) ∧
      ((splitToken cfg (max 1 maxWidth).toNat false hardChunk token).map stripShy).flatten
        = token) := by
  refine ⟨?_, ?_, ?_, ?_⟩
  · have hmax : max 1 (max 1 maxWidth) = max 1 maxWidth := by omega
    unfold wrapText
    rw [hmax]
  · intro h
    rw [h]
    rfl
  · rintro ⟨c, hc, hcs⟩
    have htext : text ≠ [] := fun h => by subst h; simp at hc
    have hres : wrapText cfg text maxWidth hardChunk =
        closeWrap ((splitOnChar ' ' text).foldl
          (wrapStepToken cfg (max 1 maxWidth).toNat
            (hcTruthy hardChunk && cfg.hyphHeaders && cfg.inserted?.isSome) hardChunk)
          ([], [])) := by
      unfold wrapText closeWrap
      rw [if_neg htext]
    rw [hres]
    apply closeWrap_ne_nil
    apply (tokenFold_size cfg (max 1 maxWidth).toNat _ hardChunk (splitOnChar ' ' text)
      ([], [])).2
    rcases mem_splitOnChar_exists ' ' text c hc hcs with ⟨w, hw, hcw⟩
    exact ⟨w, hw, fun h => by subst h; simp at hcw⟩
  · intro token hne hshy
    obtain ⟨hflat, hmem⟩ := splitTokenAux_binary_recon cfg (max 1 maxWidth).toNat hardChunk
      (token.length + 1) token (by omega) hshy
    exact ⟨splitToken_ne_nil cfg (max 1 maxWidth).toNat false hardChunk token hne, hmem, hflat⟩

/-- Claim C10 counterexample: the claim asserts a nonempty result for every
input, but on the all-space input `"  "` (two spaces) `wrap_text` returns
the empty list. -/
theorem C10_cex : wrapText wcfg0 [' ', ' '] 100 none = [] := rfl

/-- Claim C10 witness: the amended theorem instantiated at text `"a b"`,
width budget `-3` (negative, exercising the clamp), and the default body
hard-chunk length 18. -/
theorem C10_witness :
    wrapText wcfg0 ['a', ' ', 'b'] (-3) (some 18)
      = wrapText wcfg0 ['a', ' ', 'b'] (max 1 (-3)) (some 18) ∧
    (['a', ' ', 'b'] = ([] : Str) → wrapText wcfg0 ['a', ' ', 'b'] (-3) (some 18) = [[]]) ∧
    ((∃ c ∈ (['a', ' ', 'b'] : Str), c ≠ ' ') →
      wrapText wcfg0 ['a', ' ', 'b'] (-3) (some 18) ≠ []) ∧
    (∀ token : Str, token ≠ [] → shy ∉ token →
      splitToken wcfg0 (max 1 (-3 : Int)).toNat false (some 18) token ≠ [] ∧
      (∀ p ∈ splitToken wcfg0 (max 1 (-3 : Int)).toNat false (some 18) token, stripShy p ≠ []) ∧
      ((splitToken wcfg0 (max 1 (-3 : Int)).toNat false (some 18) token).map stripShy).flatten
        = token) :=
  C10_total wcfg0 ['a', ' ', 'b'] (-3) (some 18)

lemma ellLoop_bounds (w : Str → Nat) (maxW : Int) (v : Str) :
    ∀ (n lo hi : Nat), hi - lo ≤ n →
    lo ≤ ellLoop w maxW v lo hi ∧ (lo ≤ hi → ellLoop w maxW v lo hi ≤ hi) := by
  intro n
  induction n using Nat.strong_induction_on with
  | _ n ih =>
    intro lo hi hn
    rw [ellLoop]
    by_cases h : lo < hi
    · rw [dif_pos h]
      set mid := (lo + hi) / 2 with hmid
      by_cases hc : (w (v.take mid ++ ['…']) : Int) ≤ maxW
      · rw [if_pos hc]
        obtain ⟨ha, hb⟩ := ih (hi - (mid + 1)) (by omega) (mid + 1) hi (le_refl _)
        have hb' := hb (by omega)
        omega
      · rw [if_neg hc]
        obtain ⟨ha, hb⟩ := ih (mid - lo) (by omega) lo mid (le_refl _)
        have hb' := hb (by omega)
        omega
    · rw [dif_neg h]
      omega

lemma ellLoop_le (w : Str → Nat) (v : Str) (w1 w2 : Int) (h12 : w1 ≤ w2) :
    ∀ (n lo hi : Nat), hi - lo ≤ n →
    ellLoop w w1 v lo hi ≤ ellLoop w w2 v lo hi := by
  intro n
  induction n using Nat.strong_induction_on with
  | _ n ih =>
    intro lo hi hn
    rw [ellLoop, ellLoop]
    by_cases h : lo < hi
    · rw [dif_pos h, dif_pos h]
      set mid := (lo + hi) / 2 with hmid
      by_cases hc1 : (w (v.take mid ++ ['…']) : Int) ≤ w1
      · have hc2 : (w (v.take mid ++ ['…']) : Int) ≤ w2 := le_trans hc1 h12
        rw [if_pos hc1, if_pos hc2]
        exact ih (hi - (mid + 1)) (by omega) (mid + 1) hi (le_refl _)
      · by_cases hc2 : (w (v.take mid ++ ['…']) : Int) ≤ w2
        · rw [if_neg hc1, if_pos hc2]
          obtain ⟨_, hub⟩ := ellLoop_bounds w w1 v (mid - lo) lo mid (le_refl _)
          have hub' := hub (by omega)
          obtain ⟨hlb, _⟩ := ellLoop_bounds w w2 v (hi - (mid + 1)) (mid + 1) hi (le_refl _)
          omega
        · rw [if_neg hc1, if_neg hc2]
          exact ih (mid - lo) (by omega) lo mid (le_refl _)
    · rw [dif_neg h, dif_neg h]

lemma take_prefix_take (v : Str) (k1 k2 : Nat) (h : k1 ≤ k2) :
    v.take k1 <+: v.take k2 := by
  have hp := List.take_prefix k1 (v.take k2)
  rwa [List.take_take, min_eq_left h] at hp

lemma ellipsize_trunc (w : Str → Nat) (v : Str) (maxW : Int) (hv : v ≠ [])
    (hbig : ¬ ((w v : Int) ≤ maxW)) :
    ellipsize w v maxW = v.take (ellLoop w maxW v 0 v.length - 1) ++ ['…'] := by
  simp only [ellipsize, if_neg hv, if_neg hbig]
  split_ifs with h
  · rfl
  · have h0 : ellLoop w maxW v 0 v.length = 0 := by omega
    rw [h0]
    simp

/-- Claim C9 (confirmed): for a prefix-monotone measurement primitive and
max widths `w1 ≤ w2`, `ellipsize` at `w1` retains a prefix of the original
text that is no longer than (and a prefix of) the one retained at `w2`, and
the full result at `w1` is no longer than the result at `w2`; each result is
the retained prefix, with a trailing ellipsis exactly when the text was
truncated. -/
theorem C9_mono (w : Str → Nat) (v : Str) (w1 w2 : Int)
    (_hmono : ∀ s t : Str, w s ≤ w (s ++ t)) (h12 : w1 ≤ w2) :
    ∃ k1 k2 : Nat,
      k1 ≤ k2 ∧
      (v.take k1) <+: (v.take k2) ∧
      (ellipsize w v w1).length ≤ (ellipsize w v w2).length ∧
      (ellipsize w v w1 = v.take k1 ++ ['…'] ∨ ellipsize w v w1 = v.take k1) ∧
      (ellipsize w v w2 = v.take k2 ++ ['…'] ∨ ellipsize w v w2 = v.take k2) := by
  by_cases hv : v = []
  · subst hv
    exact ⟨0, 0, le_refl _, List.prefix_refl _, le_refl _,
      Or.inr (by simp [ellipsize]), Or.inr (by simp [ellipsize])⟩
  have hlen1 : 1 ≤ v.length := by
    cases v
    · exact absurd rfl hv
    · simp
  by_cases h1 : (w v : Int) ≤ w1
  · have h2 : (w v : Int) ≤ w2 := le_trans h1 h12
    have hr1 : ellipsize w v w1 = v := by simp [ellipsize, hv, h1]
    have hr2 : ellipsize w v w2 = v := by simp [ellipsize, hv, h2]
    exact ⟨v.length, v.length, le_refl _, List.prefix_refl _,
      by rw [hr1, hr2],
      Or.inr (by rw [hr1, List.take_length]),
      Or.inr (by rw [hr2, List.take_length])⟩
  by_cases h2 : (w v : Int) ≤ w2
  · have hr1 := ellipsize_trunc w v w1 hv h1
    have hr2 : ellipsize w v w2 = v := by simp [ellipsize, hv, h2]
    obtain ⟨_, hub⟩ := ellLoop_bounds w w1 v v.length 0 v.length (by omega)
    have hub' := hub (by omega)
    refine ⟨ellLoop w w1 v 0 v.length - 1, v.length, by omega,
      take_prefix_take v _ _ (by omega), ?_, Or.inl hr1,
      Or.inr (by rw [hr2, List.take_length])⟩
    rw [hr1, hr2, List.length_append, List.length_take]
    simp only [List.length_singleton]
    omega
  · have hr1 := ellipsize_trunc w v w1 hv h1
    have hr2 := ellipsize_trunc w v w2 hv h2
    have hle := ellLoop_le w v w1 w2 h12 v.length 0 v.length (by omega)
    refine ⟨ellLoop w w1 v 0 v.length - 1, ellLoop w w2 v 0 v.length - 1, by omega,
      take_prefix_take v _ _ (by omega), ?_, Or.inl hr1, Or.inl hr2⟩
    rw [hr1, hr2, List.length_append, List.length_append, List.length_take, List.length_take]
    simp only [List.length_singleton]
    omega

/-- Claim C9 witness: the theorem instantiated at the length-proportional
measurement, text `"abc"`, and widths `15 ≤ 100`. -/
theorem C9_witness :
    (∀ s t : Str, widthLen s ≤ widthLen (s ++ t)) ∧ ((15 : Int) ≤ 100) ∧
    (∃ k1 k2 : Nat,
      k1 ≤ k2 ∧
      ((['a', 'b', 'c'] : Str).take k1) <+: ((['a', 'b', 'c'] : Str).take k2) ∧
      (ellipsize widthLen ['a', 'b', 'c'] 15).length
        ≤ (ellipsize widthLen ['a', 'b', 'c'] 100).length ∧
      (ellipsize widthLen ['a', 'b', 'c'] 15 = (['a', 'b', 'c'] : Str).take k1 ++ ['…'] ∨
        ellipsize widthLen ['a', 'b', 'c'] 15 = (['a', 'b', 'c'] : Str).take k1) ∧
      (ellipsize widthLen ['a', 'b', 'c'] 100 = (['a', 'b', 'c'] : Str).take k2 ++ ['…'] ∨
        ellipsize widthLen ['a', 'b', 'c'] 100 = (['a', 'b', 'c'] : Str).take k2)) :=
  ⟨fun s t => by simp only [widthLen, List.length_append]; omega, by norm_num,
    C9_mono widthLen ['a', 'b', 'c'] 15 100
      (fun s t => by simp only [widthLen, List.length_append]; omega) (by norm_num)⟩

lemma foldl_max_bounds (l : List Nat) :
    ∀ a : Nat, a ≤ l.foldl max a ∧ ∀ x ∈ l, x ≤ l.foldl max a := by
  induction l with
  | nil => intro a; exact ⟨le_refl _, by simp⟩
  | cons y ys ih =>
    intro a
    obtain ⟨h1, h2⟩ := ih (max a y)
    refine ⟨le_trans (le_max_left a y) h1, ?_⟩
    intro x hx
    rcases List.mem_cons.mp hx with hx | hx
    · subst hx
      exact le_trans (le_max_right a x) h1
    · exact h2 x hx

lemma maxCols_bound (cleaned : List (List Str)) :
    ∀ r ∈ cleaned, r.length ≤ maxCols cleaned := by
  intro r hr
  exact (foldl_max_bounds (cleaned.map List.length) 0).2 r.length
    (List.mem_map_of_mem List.length hr)

lemma padTo_eq_pad (m : Nat) (r : List Str) (hle : r.length ≤ m) :
    padTo m r = r ++ List.replicate (m - r.length) ([] : Str) := by
  unfold padTo
  by_cases h : r.length < m
  · rw [if_pos h]
  · rw [if_neg h]
    have hlen : r.length = m := by omega
    rw [← hlen, List.take_length, Nat.sub_self, List.replicate_zero, List.append_nil]

/-- Claim C8 counterexample: the claim says rows longer than the header are
truncated to the header's cell count, but on `[["h"], ["a", "b"]]`
(header of one cell, body row of two) `normalize_rows` pads the header to
two cells and keeps the body row intact: no row ends up with the header's
original single cell. -/
theorem C8_cex :
    normalizeRows [[['h']], [['a'], ['b']]] = [[['h'], []], [['a'], ['b']]] ∧
    ¬ ∀ r ∈ normalizeRows [[['h']], [['a'], ['b']]], r.length = 1 := by
  constructor
  · rfl
  · intro h
    have := h [['a'], ['b']] (by rw [show normalizeRows [[['h']], [['a'], ['b']]]
      = [[['h'], []], [['a'], ['b']]] from rfl]; simp)
    simp at this

/-- Claim C8 (amended): `normalize_rows` equalizes every surviving row to
`max_cols`, the MAXIMUM cell count over the kept rows (not the header's):
each kept row — the first with its leading BOM stripped — is right-padded
with empty strings up to `max_cols`, and no row is ever truncated. -/
theorem C8_amended (rows : List (List Str)) (hne : normalizeRows rows ≠ []) :
    (∀ r ∈ normalizeRows rows, r.length = maxCols (bomFix (keptRows rows))) ∧
    normalizeRows rows = (bomFix (keptRows rows)).map
      (fun r => r ++ List.replicate (maxCols (bomFix (keptRows rows)) - r.length) ([] : Str)) := by
  by_cases hrows : rows = []
  · exact absurd (by rw [hrows]; rfl) hne
  by_cases hkept : keptRows rows = []
  · exact absurd (by unfold normalizeRows; rw [if_neg hrows, if_pos hkept]) hne
  have hout : normalizeRows rows = (bomFix (keptRows rows)).map
      (padTo (maxCols (bomFix (keptRows rows)))) := by
    simp only [normalizeRows, if_neg hrows, if_neg hkept]
  have hmap : (bomFix (keptRows rows)).map (padTo (maxCols (bomFix (keptRows rows))))
      = (bomFix (keptRows rows)).map
        (fun r => r ++ List.replicate (maxCols (bomFix (keptRows rows)) - r.length) ([] : Str)) := by
    apply List.map_congr_left
    intro r hr
    exact padTo_eq_pad _ r (maxCols_bound _ r hr)
  refine ⟨?_, by rw [hout, hmap]⟩
  intro r hr
  rw [hout, hmap] at hr
  rcases List.mem_map.mp hr with ⟨src, hsrc, hrfl⟩
  subst hrfl
  have hle := maxCols_bound (bomFix (keptRows rows)) src hsrc
  rw [List.length_append, List.length_replicate]
  omega

/-- Claim C8 witness: the amended theorem instantiated on the counter-input
`[["h"], ["a", "b"]]`, whose normalization is nonempty. -/
theorem C8_witness :
    normalizeRows [[['h']], [['a'], ['b']]] ≠ [] ∧
    ((∀ r ∈ normalizeRows [[['h']], [['a'], ['b']]],
        r.length = maxCols (bomFix (keptRows [[['h']], [['a'], ['b']]]))) ∧
      normalizeRows [[['h']], [['a'], ['b']]] = (bomFix (keptRows [[['h']], [['a'], ['b']]])).map
        (fun r => r ++ List.replicate
          (maxCols (bomFix (keptRows [[['h']], [['a'], ['b']]])) - r.length) ([] : Str))) :=
  ⟨by decide, C8_amended [[['h']], [['a'], ['b']]] (by decide)⟩

lemma foldl_max_comm (l : List Nat) : ∀ a b : Nat, l.foldl max (max a b) = max a (l.foldl max b) := by
  induction l with
  | nil => intro a b; rfl
  | cons x xs ih =>
    intro a b
    simp only [List.foldl_cons]
    rw [max_assoc, ih a (max b x)]

lemma foldl_max_attained (l : List Nat) : ∀ a : Nat, l.foldl max a = a ∨ l.foldl max a ∈ l := by
  induction l with
  | nil => intro a; exact Or.inl rfl
  | cons x xs ih =>
    intro a
    simp only [List.foldl_cons]
    rcases ih (max a x) with h | h
    · rcases Nat.le_total a x with hax | hxa
      · right
        rw [h, max_eq_right hax]
        exact List.mem_cons_self x xs
      · left
        rw [h, max_eq_left hxa]
    · right
      exact List.mem_cons_of_mem x h

lemma kUsedOf_cons (kFit : Int) (l : List Str) (ls : List (List Str)) :
    kUsedOf kFit (l :: ls) = max (takeOf kFit l) (kUsedOf kFit ls) := by
  unfold kUsedOf
  simp only [List.map_cons, List.foldl_cons, Nat.zero_max]
  rw [show takeOf kFit l = max (takeOf kFit l) 0 from (Nat.max_zero _).symm,
    foldl_max_comm]
  omega

lemma kFitOf_pos (g : Geom) (a : Int) : 1 ≤ (kFitOf g a).toNat := by
  have h : (1 : Int) ≤ kFitOf g a := le_max_left _ _
  omega

lemma takeOf_eq_zero (kFit : Int) (l : List Str) (hk : 1 ≤ kFit.toNat)
    (h : takeOf kFit l = 0) : l = [] := by
  unfold takeOf at h
  have hlen : l.length = 0 := by omega
  exact List.eq_nil_of_length_eq_zero hlen

lemma kUsedOf_zero (kFit : Int) (rest : List (List Str)) (hk : 1 ≤ kFit.toNat)
    (h : kUsedOf kFit rest = 0) : ∀ l ∈ rest, l = [] := by
  intro l hl
  have hle := (foldl_max_bounds (rest.map (takeOf kFit)) 0).2 (takeOf kFit l)
    (List.mem_map_of_mem _ hl)
  unfold kUsedOf at h
  rw [h] at hle
  exact takeOf_eq_zero kFit l hk (by omega)

lemma sum_restAfter_le (kFit : Int) (rest : List (List Str)) :
    ((restAfter kFit rest).map List.length).sum ≤ (rest.map List.length).sum := by
  induction rest with
  | nil => simp [restAfter]
  | cons l ls ih =>
    simp only [restAfter, List.map_cons, List.sum_cons] at ih ⊢
    have hd : (l.drop (takeOf kFit l)).length ≤ l.length := by
      rw [List.length_drop]
      omega
    omega

lemma sum_restAfter_lt (kFit : Int) (rest : List (List Str)) (hk : 1 ≤ kFit.toNat)
    (h : kUsedOf kFit rest ≠ 0) :
    ((restAfter kFit rest).map List.length).sum < (rest.map List.length).sum := by
  induction rest with
  | nil => exact absurd rfl h
  | cons l ls ih =>
    rw [kUsedOf_cons] at h
    by_cases ht : takeOf kFit l = 0
    · have hls : kUsedOf kFit ls ≠ 0 := by
        intro h0
        rw [ht, h0] at h
        exact h rfl
      have := ih hls
      simp only [restAfter, List.map_cons, List.sum_cons] at this ⊢
      have hd : (l.drop (takeOf kFit l)).length ≤ l.length := by
        rw [List.length_drop]; omega
      omega
    · have hlen1 : 1 ≤ l.length := by
        unfold takeOf at ht
        omega
      have hle := sum_restAfter_le kFit ls
      simp only [restAfter, List.map_cons, List.sum_cons] at hle ⊢
      have hd : (l.drop (takeOf kFit l)).length < l.length := by
        rw [List.length_drop]
        have : 1 ≤ takeOf kFit l := by omega
        have hub : takeOf kFit l ≤ l.length := by unfold takeOf; omega
        omega
      omega

lemma getD_map_of_lt (f : Str → Str) (l : List Str) (j : Nat) (hj : j < l.length) (d : Str) :
    (l.map f).getD j d = f (l.get ⟨j, hj⟩) := by
  rw [List.getD_eq_getElem _ _ (by simpa using hj), List.getElem_map]
  rfl

lemma getD_map_of_lt2 (f : List Str → List Str) (l : List (List Str)) (j : Nat)
    (hj : j < l.length) (d : List Str) :
    (l.map f).getD j d = f (l.get ⟨j, hj⟩) := by
  rw [List.getD_eq_getElem _ _ (by simpa using hj), List.getElem_map]
  rfl

lemma renderRow_spec (g : Geom) :
    ∀ (fuel : Nat) (rest : List (List Str)) (y : Int) (b : Nat),
    (rest.map List.length).sum < fuel →
    ∃ slices y2 b2, renderRowAux g fuel rest y b = some (slices, y2, b2) ∧
      ∀ j : Nat, ((slices.map (fun s => s.getD j [])).flatten) = rest.getD j [] := by
  intro fuel
  induction fuel with
  | zero => intro rest y b h; omega
  | succ f ih =>
    intro rest y b h
    by_cases h0 : kUsedOf (kFitOf g (availOf g (entryBreak g y b).1)) rest = 0
    · refine ⟨[], (entryBreak g y b).1, (entryBreak g y b).2, ?_, ?_⟩
      · rw [renderRowAux, if_pos h0]
      · intro j
        simp only [List.map_nil, List.flatten_nil]
        have hk := kFitOf_pos g (availOf g (entryBreak g y b).1)
        have hall := kUsedOf_zero _ rest hk h0
        rcases Nat.lt_or_ge j rest.length with hj | hj
        · rw [List.getD_eq_getElem _ _ hj]
          exact (hall _ (List.getElem_mem hj)).symm
        · rw [List.getD_eq_default _ _ hj]
    · have hk := kFitOf_pos g (availOf g (entryBreak g y b).1)
      have hsum := sum_restAfter_lt (kFitOf g (availOf g (entryBreak g y b).1)) rest hk h0
      obtain ⟨slices, y2, b2, heq, hcol⟩ := ih
        (restAfter (kFitOf g (availOf g (entryBreak g y b).1)) rest)
        (postBreak g (restAfter (kFitOf g (availOf g (entryBreak g y b).1)) rest)
          ((entryBreak g y b).1 + sliceHOf g
            (kUsedOf (kFitOf g (availOf g (entryBreak g y b).1)) rest))
          (entryBreak g y b).2).1
        (postBreak g (restAfter (kFitOf g (availOf g (entryBreak g y b).1)) rest)
          ((entryBreak g y b).1 + sliceHOf g
            (kUsedOf (kFitOf g (availOf g (entryBreak g y b).1)) rest))
          (entryBreak g y b).2).2
        (by omega)
      refine ⟨sliceOf (kFitOf g (availOf g (entryBreak g y b).1)) rest :: slices, y2, b2, ?_, ?_⟩
      · rw [renderRowAux, if_neg h0, heq]
      · intro j
        simp only [List.map_cons, List.flatten_cons]
        rw [hcol j]
        rcases Nat.lt_or_ge j rest.length with hj | hj
        · unfold sliceOf restAfter
          rw [getD_map_of_lt2 _ rest j hj, getD_map_of_lt2 _ rest j hj,
            List.getD_eq_getElem _ _ hj]
          exact List.take_append_drop _ _
        · rw [List.getD_eq_default _ _ hj, List.getD_eq_default, List.getD_eq_default]
          · rfl
          · unfold restAfter
            simpa using hj
          · unfold sliceOf
            simpa using hj

lemma renderPages_spec (g : Geom) :
    ∀ (wrapped : List (List (List Str))) (y : Int) (b : Nat),
    ∃ out y2 b2, renderPagesAux g wrapped y b = some (out, y2, b2) ∧
      ∀ i j : Nat, (((out.getD i []).map (fun s => s.getD j [])).flatten)
        = (wrapped.getD i []).getD j [] := by
  intro wrapped
  induction wrapped with
  | nil =>
    intro y b
    exact ⟨[], y, b, rfl, by intro i j; simp⟩
  | cons r rs ih =>
    intro y b
    obtain ⟨slices, y2, b2, heq, hcol⟩ := renderRow_spec g (rowFuel r) r y b
      (by unfold rowFuel; omega)
    obtain ⟨out, yf, bf, heq2, hcol2⟩ := ih y2 b2
    refine ⟨slices :: out, yf, bf, ?_, ?_⟩
    · rw [renderPagesAux, heq]
      dsimp only
      rw [heq2]
    · intro i j
      cases i with
      | zero => simpa using hcol j
      | succ i => simpa using hcol2 i j

/-- Claim C3 (confirmed): the render loop emits every wrapped line of every
row exactly once — for each row and column, concatenating the per-column
line ranges drawn on the successive page slices reproduces the cell's
wrapped line sequence (`_wrap_row_cells`) with nothing skipped or
duplicated.  The hypothesis keeps the line-height divisor of `k_fit`
positive, where Python's `//` is defined (the source fixes
`line_gap = 6`). -/
theorem C3_emits (g : Geom) (cfg : WrapCfg) (colWidths : List Int) (padX : Int)
    (rows : List (List Str)) (_hgap : 0 < g.oneH + g.lineGap) :
    ∃ out y2 b2,
      renderPagesAux g (rows.map (wrapRowCells cfg colWidths padX)) (yTop g) 0
        = some (out, y2, b2) ∧
      (∀ i j : Nat, (((out.getD i []).map (fun s => s.getD j [])).flatten)
        = ((rows.map (wrapRowCells cfg colWidths padX)).getD i []).getD j []) ∧
      (∀ (i : Nat) (hi : i < rows.length) (j : Nat),
        (((out.getD i []).map (fun s => s.getD j [])).flatten)
          = (wrapRowCells cfg colWidths padX (rows.get ⟨i, hi⟩)).getD j []) := by
  obtain ⟨out, y2, b2, heq, hcol⟩ :=
    renderPages_spec g (rows.map (wrapRowCells cfg colWidths padX)) (yTop g) 0
  refine ⟨out, y2, b2, heq, hcol, ?_⟩
  intro i hi j
  have hmap : ((rows.map (wrapRowCells cfg colWidths padX)).getD i [])
      = wrapRowCells cfg colWidths padX (rows.get ⟨i, hi⟩) := by
    rw [List.getD_eq_getElem _ _ (by simpa using hi), List.getElem_map]
    rfl
  rw [hcol i j, hmap]

/-- Claim C3 witness: the theorem instantiated at a small concrete geometry
(five-pixel lines, no gaps), one column of width 30, and a single row whose
cell wraps at the concrete length-proportional measurement. -/
theorem C3_witness :
    (0 : Int) < g0.oneH + g0.lineGap ∧
    ∃ out y2 b2,
      renderPagesAux g0 ([[['a', 'b']]].map (wrapRowCells wcfg0 [30] 0)) (yTop g0) 0
        = some (out, y2, b2) ∧
      (∀ i j : Nat, (((out.getD i []).map (fun s => s.getD j [])).flatten)
        = (([[['a', 'b']]].map (wrapRowCells wcfg0 [30] 0)).getD i []).getD j []) ∧
      (∀ (i : Nat) (hi : i < ([[['a', 'b']]] : List (List Str)).length) (j : Nat),
        (((out.getD i []).map (fun s => s.getD j [])).flatten)
          = (wrapRowCells wcfg0 [30] 0 (([[['a', 'b']]] : List (List Str)).get ⟨i, hi⟩)).getD j []) :=
  ⟨by decide, C3_emits g0 wcfg0 [30] 0 [[['a', 'b']]] (by decide)⟩

lemma sim_g1_stuck : ∀ (fuel p : Nat), simulateRowAux g1 fuel [[['a']]] 8 p = none := by
  intro fuel
  induction fuel with
  | zero => intro p; rfl
  | succ f ih =>
    intro p
    rw [simulateRowAux, if_pos (by decide : availOf g1 8 < minBlock g1),
      show yTop g1 = (8 : Int) from by decide]
    exact ih (p + 1)

/-- Claim C4 (code bug): the pre-pass `simulate_pages` and the render loop
disagree on the page count.  When the table fills the last page to within
`min_block` of the bottom (`g0` with a one-column, two-line row), the render
loop starts one more page after the row is fully consumed and then breaks,
emitting a trailing blank page: 2 canvases against the simulation's 1 (the
drawn page numbers read `Seite i/1` on two pages).  And when a fresh page
already lacks `min_block` below the band and table header (`g1`), the
simulation's `continue` loop never terminates (no fuel suffices) while the
render loop still returns pages. -/
theorem C4_bug :
    renderPageCount g0 [[[['a'], ['b']]]] = some 2 ∧
    simulatePages g0 5 [[[['a'], ['b']]]] = some 1 ∧
    (∀ fuel : Nat, simulatePages g1 fuel [[[['a']]]] = none) ∧
    renderPageCount g1 [[[['a']]]] = some 3 := by
  refine ⟨by decide, by decide, ?_, by decide⟩
  intro fuel
  unfold simulatePages simulatePagesAux
  rw [show yTop g1 = (8 : Int) from by decide, sim_g1_stuck fuel 1]
  rfl

/-- Claim C6 counterexample: with `k_fit = 5` and column line rests of 2 and
1, the engine's `k_used` is 2 — the MAXIMUM of the per-column capped rests —
while the claim's minimum is 1, and the columns emit different numbers of
lines (2 against 1). -/
theorem C6_cex :
    kUsedOf 5 [[['a'], ['b']], [['c']]] = 2 ∧
    (([[['a'], ['b']], [['c']]] : List (List Str)).map (takeOf 5)).foldl min 5 = 1 ∧
    ¬ ∀ t ∈ ([[['a'], ['b']], [['c']]] : List (List Str)).map (takeOf 5),
        t = kUsedOf 5 [[['a'], ['b']], [['c']]] := by
  refine ⟨by decide, by decide, ?_⟩
  intro h
  have := h (takeOf 5 [['c']]) (by decide)
  revert this
  decide

/-- Claim C6 (amended): in a pass of the render loop over a row with
unconsumed lines (and enough room on entry), column `j` emits
`take_j = min(k_fit, rest_j)` of its remaining lines — so columns emit
DIFFERENT numbers of lines in general — and the slice's `k_used` is the
MAXIMUM of the per-column takes (an upper bound that is attained), not the
minimum claimed: the loop recurses on the per-column suffixes after the
post-slice page break. -/
theorem C6_amended (g : Geom) (f : Nat) (rest : List (List Str)) (y : Int) (b : Nat)
    (hav : ¬ availOf g y < minBlock g)
    (h0 : kUsedOf (kFitOf g (availOf g y)) rest ≠ 0) :
    (∀ t ∈ rest.map (takeOf (kFitOf g (availOf g y))),
        t ≤ kUsedOf (kFitOf g (availOf g y)) rest) ∧
    kUsedOf (kFitOf g (availOf g y)) rest ∈ rest.map (takeOf (kFitOf g (availOf g y))) ∧
    renderRowAux g (f + 1) rest y b =
      match renderRowAux g f (restAfter (kFitOf g (availOf g y)) rest)
          (postBreak g (restAfter (kFitOf g (availOf g y)) rest)
            (y + sliceHOf g (kUsedOf (kFitOf g (availOf g y)) rest)) b).1
          (postBreak g (restAfter (kFitOf g (availOf g y)) rest)
            (y + sliceHOf g (kUsedOf (kFitOf g (availOf g y)) rest)) b).2 with
      | none => none
      | some (slices, yf, bf) =>
        some (sliceOf (kFitOf g (availOf g y)) rest :: slices, yf, bf) := by
  have hE : entryBreak g y b = (y, b) := by
    unfold entryBreak
    rw [if_neg hav]
  refine ⟨?_, ?_, ?_⟩
  · exact fun t ht => (foldl_max_bounds (rest.map (takeOf (kFitOf g (availOf g y)))) 0).2 t ht
  · rcases foldl_max_attained (rest.map (takeOf (kFitOf g (availOf g y)))) 0 with hA | hA
    · exact absurd hA h0
    · exact hA
  · rw [renderRowAux, hE]
    dsimp only
    rw [if_neg h0]

/-- Claim C6 witness: the amended theorem instantiated at the concrete
geometry `g0` (where two lines fit) and columns with 2 and 1 remaining
lines. -/
theorem C6_witness :
    (¬ availOf g0 0 < minBlock g0) ∧
    kUsedOf (kFitOf g0 (availOf g0 0)) [[['a'], ['b']], [['c']]] ≠ 0 ∧
    ((∀ t ∈ ([[['a'], ['b']], [['c']]] : List (List Str)).map (takeOf (kFitOf g0 (availOf g0 0))),
        t ≤ kUsedOf (kFitOf g0 (availOf g0 0)) [[['a'], ['b']], [['c']]]) ∧
      kUsedOf (kFitOf g0 (availOf g0 0)) [[['a'], ['b']], [['c']]]
        ∈ ([[['a'], ['b']], [['c']]] : List (List Str)).map (takeOf (kFitOf g0 (availOf g0 0))) ∧
      renderRowAux g0 (3 + 1) [[['a'], ['b']], [['c']]] 0 0 =
        match renderRowAux g0 3 (restAfter (kFitOf g0 (availOf g0 0)) [[['a'], ['b']], [['c']]])
            (postBreak g0 (restAfter (kFitOf g0 (availOf g0 0)) [[['a'], ['b']], [['c']]])
              (0 + sliceHOf g0 (kUsedOf (kFitOf g0 (availOf g0 0)) [[['a'], ['b']], [['c']]])) 0).1
            (postBreak g0 (restAfter (kFitOf g0 (availOf g0 0)) [[['a'], ['b']], [['c']]])
              (0 + sliceHOf g0 (kUsedOf (kFitOf g0 (availOf g0 0)) [[['a'], ['b']], [['c']]])) 0).2 with
        | none => none
        | some (slices, yf, bf) =>
          some (sliceOf (kFitOf g0 (availOf g0 0)) [[['a'], ['b']], [['c']]] :: slices, yf, bf)) :=
  ⟨by decide, by decide,
    C6_amended g0 3 [[['a'], ['b']], [['c']]] 0 0 (by decide) (by decide)⟩

lemma getD_range_map {α : Type} (f : Nat → α) (n j : Nat) (hj : j < n) (d : α) :
    ((List.range n).map f).getD j d = f j := by
  rw [List.getD_eq_getElem _ _ (by simpa using hj), List.getElem_map, List.getElem_range]

lemma getD_set_self (l : List Int) (j : Nat) (hj : j < l.length) (v : Int) :
    (l.set j v).getD j 0 = v := by
  rw [List.getD_eq_getElem _ _ (by simpa using hj), List.getElem_set, if_pos rfl]

lemma getD_set_ne (l : List Int) (i j : Nat) (v : Int) (h : j ≠ i) :
    (l.set j v).getD i 0 = l.getD i 0 := by
  by_cases hi : i < l.length
  · rw [List.getD_eq_getElem _ _ (by simpa using hi), List.getElem_set, if_neg h,
      List.getD_eq_getElem _ _ hi]
  · rw [List.getD_eq_default _ _ (by simpa using Nat.le_of_not_lt hi),
      List.getD_eq_default _ _ (Nat.le_of_not_lt hi)]

lemma sum_set_int (l : List Int) : ∀ (j : Nat), j < l.length → ∀ v : Int,
    (l.set j v).sum = l.sum - l.getD j 0 + v := by
  induction l with
  | nil => intro j hj; simp at hj
  | cons x xs ih =>
    intro j hj v
    cases j with
    | zero => simp [List.set]; omega
    | succ j =>
      have hj' : j < xs.length := by simpa using hj
      simp only [List.set, List.sum_cons, List.getD_cons_succ]
      rw [ih j hj' v]
      omega

lemma sum_le_sum_of_getD (a : List Int) : ∀ (b : List Int), a.length = b.length →
    (∀ j ∈ List.range a.length, a.getD j 0 ≤ b.getD j 0) → a.sum ≤ b.sum := by
  induction a with
  | nil =>
    intro b hlen _
    rw [(List.eq_nil_of_length_eq_zero hlen.symm)]
  | cons x xs ih =>
    intro b hlen hle
    cases b with
    | nil => simp at hlen
    | cons y ys =>
      have h0 : x ≤ y := by simpa using hle 0 (by simp)
      have ht : xs.sum ≤ ys.sum := by
        refine ih ys (by simpa using hlen) ?_
        intro j hj
        have := hle (j + 1) (by simp at hj ⊢; omega)
        simpa [List.getD_cons_succ] using this
      simp only [List.sum_cons]
      omega

lemma sum_lt_exists_lt (a : List Int) : ∀ (b : List Int), a.length = b.length →
    (∀ j ∈ List.range a.length, a.getD j 0 ≤ b.getD j 0) → a.sum < b.sum →
    ∃ j, j < a.length ∧ a.getD j 0 < b.getD j 0 := by
  induction a with
  | nil =>
    intro b hlen _ hsum
    rw [(List.eq_nil_of_length_eq_zero hlen.symm)] at hsum
    simp at hsum
  | cons x xs ih =>
    intro b hlen hle hsum
    cases b with
    | nil => simp at hlen
    | cons y ys =>
      have h0 : x ≤ y := by simpa using hle 0 (by simp)
      by_cases hxy : x < y
      · exact ⟨0, by simp, by simpa using hxy⟩
      · have hxe : x = y := by omega
        have hsum' : xs.sum < ys.sum := by
          simp only [List.sum_cons] at hsum
          omega
        obtain ⟨j, hj, hlt⟩ := ih ys (by simpa using hlen)
          (by
            intro j hj
            have := hle (j + 1) (by simp at hj ⊢; omega)
            simpa [List.getD_cons_succ] using this) hsum'
        exact ⟨j + 1, by simpa using hj, by simpa [List.getD_cons_succ] using hlt⟩

lemma roundHE_nonneg (a b : Int) (ha : 0 ≤ a) (hb : 0 ≤ b) : 0 ≤ roundHE a b :=  by
  have hf : (0 : Int) ≤ a.fdiv b := Int.fdiv_nonneg ha hb
  unfold roundHE
  split_ifs <;> omega

lemma insertDesc_perm (key : Nat → Int) (j : Nat) :
    ∀ l : List Nat, (insertDesc key j l).Perm (j :: l) := by
  intro l
  induction l with
  | nil => exact List.Perm.refl _
  | cons k rest ih =>
    rw [insertDesc]
    split_ifs with h
    · exact ((ih.cons k).trans (List.Perm.swap j k rest))
    · exact List.Perm.refl _

lemma sortDesc_perm (key : Nat → Int) : ∀ l : List Nat, (sortDesc key l).Perm l := by
  intro l
  induction l with
  | nil => exact List.Perm.refl _
  | cons j rest ih =>
    rw [sortDesc]
    exact (insertDesc_perm key j (sortDesc key rest)).trans (ih.cons j)

lemma reconPass_spec (caps minw : List Int) (placeW : Int) :
    ∀ (order : List Nat) (w : List Int) (d : Int),
    (∀ j ∈ order, j < w.length) →
    (∀ j ∈ List.range w.length, minw.getD j 0 ≤ w.getD j 0 ∧ w.getD j 0 ≤ caps.getD j 0) →
    d = placeW - w.sum →
    (reconPass caps minw order w d).1.length = w.length ∧
    (∀ j ∈ List.range w.length,
      minw.getD j 0 ≤ (reconPass caps minw order w d).1.getD j 0 ∧
      (reconPass caps minw order w d).1.getD j 0 ≤ caps.getD j 0) ∧
    (reconPass caps minw order w d).2 = placeW - (reconPass caps minw order w d).1.sum ∧
    (reconPass caps minw order w d).2.natAbs ≤ d.natAbs := by
  intro order
  induction order with
  | nil =>
    intro w d _ hb hd
    exact ⟨rfl, hb, hd, le_refl _⟩
  | cons k rest ih =>
    intro w d horder hb hd
    have hk : k < w.length := horder k (List.mem_cons_self k rest)
    have hrest : ∀ j ∈ rest, j < w.length := fun j hj => horder j (List.mem_cons_of_mem k hj)
    by_cases hd0 : d = 0
    · rw [reconPass, if_pos hd0]
      exact ⟨rfl, hb, hd, le_refl _⟩
    by_cases hc1 : 0 < d ∧ w.getD k 0 < caps.getD k 0
    · rw [reconPass, if_neg hd0, if_pos hc1]
      have hlen : (w.set k (w.getD k 0 + 1)).length = w.length := List.length_set w k _
      have hb' : ∀ j ∈ List.range (w.set k (w.getD k 0 + 1)).length,
          minw.getD j 0 ≤ (w.set k (w.getD k 0 + 1)).getD j 0 ∧
          (w.set k (w.getD k 0 + 1)).getD j 0 ≤ caps.getD j 0 := by
        intro j hj
        rw [hlen] at hj
        by_cases hjk : k = j
        · subst hjk
          rw [getD_set_self w k hk]
          have := hb k (by simpa using hk)
          omega
        · rw [getD_set_ne w j k _ hjk]
          exact hb j hj
      have hd' : d - 1 = placeW - (w.set k (w.getD k 0 + 1)).sum := by
        rw [sum_set_int w k hk]
        omega
      obtain ⟨l1, b1, s1, n1⟩ := ih (w.set k (w.getD k 0 + 1)) (d - 1)
        (by rw [hlen]; exact hrest) hb' hd'
      refine ⟨l1.trans hlen, ?_, s1, ?_⟩
      · intro j hj
        exact b1 j (by rw [hlen]; simpa using hj)
      · have : (d - 1).natAbs ≤ d.natAbs := by omega
        omega
    by_cases hc2 : d < 0 ∧ minw.getD k 0 < w.getD k 0
    · rw [reconPass, if_neg hd0, if_neg hc1, if_pos hc2]
      have hlen : (w.set k (w.getD k 0 - 1)).length = w.length := List.length_set w k _
      have hb' : ∀ j ∈ List.range (w.set k (w.getD k 0 - 1)).length,
          minw.getD j 0 ≤ (w.set k (w.getD k 0 - 1)).getD j 0 ∧
          (w.set k (w.getD k 0 - 1)).getD j 0 ≤ caps.getD j 0 := by
        intro j hj
        rw [hlen] at hj
        by_cases hjk : k = j
        · subst hjk
          rw [getD_set_self w k hk]
          have := hb k (by simpa using hk)
          omega
        · rw [getD_set_ne w j k _ hjk]
          exact hb j hj
      have hd' : d + 1 = placeW - (w.set k (w.getD k 0 - 1)).sum := by
        rw [sum_set_int w k hk]
        omega
      obtain ⟨l1, b1, s1, n1⟩ := ih (w.set k (w.getD k 0 - 1)) (d + 1)
        (by rw [hlen]; exact hrest) hb' hd'
      refine ⟨l1.trans hlen, ?_, s1, ?_⟩
      · intro j hj
        exact b1 j (by rw [hlen]; simpa using hj)
      · have : (d + 1).natAbs ≤ d.natAbs := by omega
        omega
    · rw [reconPass, if_neg hd0, if_neg hc1, if_neg hc2]
      exact ih w d hrest hb hd

lemma reconPass_progress (caps minw : List Int) (placeW : Int) :
    ∀ (order : List Nat) (w : List Int) (d : Int),
    (∀ j ∈ order, j < w.length) →
    (∀ j ∈ List.range w.length, minw.getD j 0 ≤ w.getD j 0 ∧ w.getD j 0 ≤ caps.getD j 0) →
    d = placeW - w.sum →
    (∃ j ∈ order, (0 < d ∧ w.getD j 0 < caps.getD j 0) ∨ (d < 0 ∧ minw.getD j 0 < w.getD j 0)) →
    (reconPass caps minw order w d).2.natAbs < d.natAbs := by
  intro order
  induction order with
  | nil =>
    intro w d _ _ _ hex
    simp at hex
  | cons k rest ih =>
    intro w d horder hb hd hex
    have hk : k < w.length := horder k (List.mem_cons_self k rest)
    have hrest : ∀ j ∈ rest, j < w.length := fun j hj => horder j (List.mem_cons_of_mem k hj)
    have hd0 : d ≠ 0 := by
      rcases hex with ⟨j, _, hj⟩
      rcases hj with ⟨h1, _⟩ | ⟨h1, _⟩ <;> omega
    by_cases hc1 : 0 < d ∧ w.getD k 0 < caps.getD k 0
    · rw [reconPass, if_neg hd0, if_pos hc1]
      have hd' : d - 1 = placeW - (w.set k (w.getD k 0 + 1)).sum := by
        rw [sum_set_int w k hk]
        omega
      have hb' : ∀ j ∈ List.range (w.set k (w.getD k 0 + 1)).length,
          minw.getD j 0 ≤ (w.set k (w.getD k 0 + 1)).getD j 0 ∧
          (w.set k (w.getD k 0 + 1)).getD j 0 ≤ caps.getD j 0 := by
        intro j hj
        rw [List.length_set] at hj
        by_cases hjk : k = j
        · subst hjk
          rw [getD_set_self w k hk]
          have := hb k (by simpa using hk)
          omega
        · rw [getD_set_ne w j k _ hjk]
          exact hb j hj
      obtain ⟨_, _, _, n1⟩ := reconPass_spec caps minw placeW rest (w.set k (w.getD k 0 + 1))
        (d - 1) (by rw [List.length_set]; exact hrest) hb' hd'
      have : (d - 1).natAbs < d.natAbs := by omega
      omega
    by_cases hc2 : d < 0 ∧ minw.getD k 0 < w.getD k 0
    · rw [reconPass, if_neg hd0, if_neg hc1, if_pos hc2]
      have hd' : d + 1 = placeW - (w.set k (w.getD k 0 - 1)).sum := by
        rw [sum_set_int w k hk]
        omega
      have hb' : ∀ j ∈ List.range (w.set k (w.getD k 0 - 1)).length,
          minw.getD j 0 ≤ (w.set k (w.getD k 0 - 1)).getD j 0 ∧
          (w.set k (w.getD k 0 - 1)).getD j 0 ≤ caps.getD j 0 := by
        intro j hj
        rw [List.length_set] at hj
        by_cases hjk : k = j
        · subst hjk
          rw [getD_set_self w k hk]
          have := hb k (by simpa using hk)
          omega
        · rw [getD_set_ne w j k _ hjk]
          exact hb j hj
      obtain ⟨_, _, _, n1⟩ := reconPass_spec caps minw placeW rest (w.set k (w.getD k 0 - 1))
        (d + 1) (by rw [List.length_set]; exact hrest) hb' hd'
      have : (d + 1).natAbs < d.natAbs := by omega
      omega
    · rw [reconPass, if_neg hd0, if_neg hc1, if_neg hc2]
      refine ih w d hrest hb hd ?_
      rcases hex with ⟨j, hjmem, hj⟩
      rcases List.mem_cons.mp hjmem with hjk | hjm
      · subst hjk
        rcases hj with hj | hj
        · exact absurd hj hc1
        · exact absurd hj hc2
      · exact ⟨j, hjm, hj⟩

lemma reconLoop_spec (caps minw : List Int) (placeW : Int) (order : List Nat) :
    ∀ (fuel : Nat) (w : List Int) (d : Int),
    (∀ j ∈ order, j < w.length) →
    (∀ j, j < w.length → j ∈ order) →
    caps.length = w.length → minw.length = w.length →
    (∀ j ∈ List.range w.length, minw.getD j 0 ≤ w.getD j 0 ∧ w.getD j 0 ≤ caps.getD j 0) →
    d = placeW - w.sum →
    minw.sum ≤ placeW → placeW ≤ caps.sum →
    d.natAbs ≤ fuel →
    (reconLoop caps minw order fuel w d).sum = placeW ∧
    (reconLoop caps minw order fuel w d).length = w.length ∧
    ∀ j ∈ List.range w.length,
      minw.getD j 0 ≤ (reconLoop caps minw order fuel w d).getD j 0 ∧
      (reconLoop caps minw order fuel w d).getD j 0 ≤ caps.getD j 0 := by
  intro fuel
  induction fuel with
  | zero =>
    intro w d _ _ _ _ hb hd _ _ hfuel
    have hd0 : d = 0 := by omega
    rw [reconLoop]
    exact ⟨by omega, rfl, hb⟩
  | succ f ih =>
    intro w d horder hocov hcl hml hb hd hms hcs hfuel
    by_cases hd0 : d = 0
    · rw [reconLoop, if_pos hd0]
      exact ⟨by omega, rfl, hb⟩
    · rw [reconLoop, if_neg hd0]
      have hex : ∃ j ∈ order,
          (0 < d ∧ w.getD j 0 < caps.getD j 0) ∨ (d < 0 ∧ minw.getD j 0 < w.getD j 0) := by
        rcases Int.lt_or_lt_of_ne hd0 with hneg | hpos
        · -- d < 0: shrinkable column exists
          have hsum : minw.sum < w.sum := by omega
          obtain ⟨j, hj, hlt⟩ := sum_lt_exists_lt minw w (by omega)
            (by
              intro j hj
              rw [hml] at hj
              exact (hb j hj).1) hsum
          rw [hml] at hj
          exact ⟨j, hocov j hj, Or.inr ⟨hneg, hlt⟩⟩
        · -- 0 < d: growable column exists
          have hsum : w.sum < caps.sum := by omega
          obtain ⟨j, hj, hlt⟩ := sum_lt_exists_lt w caps (by omega)
            (by
              intro j hj
              exact (hb j hj).2) hsum
          exact ⟨j, hocov j hj, Or.inl ⟨hpos, hlt⟩⟩
      obtain ⟨l1, b1, s1, n1⟩ := reconPass_spec caps minw placeW order w d horder hb hd
      have hprog := reconPass_progress caps minw placeW order w d horder hb hd hex
      obtain ⟨r1, r2, r3⟩ := ih (reconPass caps minw order w d).1 (reconPass caps minw order w d).2
        (by rw [l1]; exact horder)
        (by rw [l1]; exact hocov)
        (by rw [l1]; exact hcl)
        (by rw [l1]; exact hml)
        (by rw [l1]; exact b1)
        s1 hms hcs (by omega)
      refine ⟨r1, r2.trans l1, ?_⟩
      intro j hj
      exact r3 j (by rw [l1]; simpa using hj)

lemma scoresOf_getD_pos (env : AllocEnv) (placeW : Int) (header : List Str)
    (rows : List (List Str)) (j : Nat) (hj : j < header.length) :
    1 ≤ (scoresOf env placeW header rows).getD j 0 := by
  unfold scoresOf
  rw [getD_range_map _ _ j hj]
  have h1 : 1 ≤ max 1 (computeWrapScore env.cfgH env.oneHH [header.getD j []]
      (max ((widths0Of env placeW header rows).getD j 0) 1) env.padX
      (some HEADER_HARD_WRAP_CHARS)
    + computeWrapScore env.cfgB env.oneHB ((columnsOf rows).getD j [])
      (max ((widths0Of env placeW header rows).getD j 0) 1) env.padX
      (some BODY_HARD_WRAP_CHARS)) := le_max_left _ _
  exact_mod_cast h1

lemma scoresOf_sum_nonneg (env : AllocEnv) (placeW : Int) (header : List Str)
    (rows : List (List Str)) :
    0 ≤ (scoresOf env placeW header rows).sum := by
  apply List.sum_nonneg
  intro x hx
  rcases List.mem_map.mp hx with ⟨j, _, rfl⟩
  exact Int.natCast_nonneg _

lemma widths0Of_ge_minw (env : AllocEnv) (placeW : Int) (header : List Str)
    (rows : List (List Str)) (j : Nat) (hj : j < header.length) :
    (minwOf env header).getD j 0 ≤ (widths0Of env placeW header rows).getD j 0 := by
  unfold widths0Of
  rw [getD_range_map _ _ j hj]
  exact le_max_left _ _

lemma widths2_bounds (env : AllocEnv) (placeW : Int) (header : List Str)
    (rows : List (List Str))
    (hbuf : 0 ≤ placeW - (widths0Of env placeW header rows).sum)
    (hmc : ∀ j ∈ List.range header.length,
      (minwOf env header).getD j 0 ≤ (capsOf env placeW header rows).getD j 0) :
    ∀ j ∈ List.range header.length,
      (minwOf env header).getD j 0 ≤ (widths2Of env placeW header rows).getD j 0 ∧
      (widths2Of env placeW header rows).getD j 0 ≤ (capsOf env placeW header rows).getD j 0 := by
  intro j hj
  have hjn : j < header.length := List.mem_range.mp hj
  have hw2 : (widths2Of env placeW header rows).getD j 0 =
      min ((capsOf env placeW header rows).getD j 0)
        ((widths0Of env placeW header rows).getD j 0 +
          roundHE ((placeW - (widths0Of env placeW header rows).sum) *
            (scoresOf env placeW header rows).getD j 0)
            (scoresOf env placeW header rows).sum) := by
    unfold widths2Of
    rw [getD_range_map _ _ j hjn]
  have hadd : 0 ≤ roundHE ((placeW - (widths0Of env placeW header rows).sum) *
      (scoresOf env placeW header rows).getD j 0)
      (scoresOf env placeW header rows).sum := by
    apply roundHE_nonneg
    · exact mul_nonneg hbuf
        (le_trans (by omega) (scoresOf_getD_pos env placeW header rows j hjn))
    · exact scoresOf_sum_nonneg env placeW header rows
  have hle := widths0Of_ge_minw env placeW header rows j hjn
  have hmcj := hmc j hj
  rw [hw2]
  constructor
  · rw [le_min_iff]
    exact ⟨hmcj, by omega⟩
  · exact min_le_left _ _

lemma minwOf_sum_nonneg (env : AllocEnv) (header : List Str) (hpad : 0 ≤ env.padX) :
    0 ≤ (minwOf env header).sum := by
  apply List.sum_nonneg
  intro x hx
  rcases List.mem_map.mp hx with ⟨j, _, rfl⟩
  have h1 : (0 : Int) ≤ minFloorFromFont env := by
    unfold minFloorFromFont
    have := Int.natCast_nonneg (env.cfgB.width ['W', 'W', 'W'])
    omega
  exact le_trans h1 (le_max_left _ _)

lemma buffered_noquery_spec (env : AllocEnv) (placeW : Int) (header : List Str)
    (rows : List (List Str))
    (hne : header ≠ [])
    (hflex1 : (widths0Of env placeW header rows).sum ≤ placeW)
    (hflex2 : (minwOf env header).sum ≤ placeW)
    (hbuf : (widths0Of env placeW header rows).sum < placeW)
    (hq : qIdxOf env header rows = [])
    (hmc : ∀ j ∈ List.range header.length,
      (minwOf env header).getD j 0 ≤ (capsOf env placeW header rows).getD j 0)
    (hcs : placeW ≤ (capsOf env placeW header rows).sum)
    (hb1 : placeW ≤ 10000)
    (hb2 : (capsOf env placeW header rows).sum ≤ 10000)
    (hpad : 0 ≤ env.padX) :
    (equalWidthWithBuffer env placeW header rows).sum = placeW ∧
    (equalWidthWithBuffer env placeW header rows).length = header.length ∧
    ∀ j ∈ List.range header.length,
      (minwOf env header).getD j 0 ≤ (equalWidthWithBuffer env placeW header rows).getD j 0 ∧
      (equalWidthWithBuffer env placeW header rows).getD j 0
        ≤ (capsOf env placeW header rows).getD j 0 := by
  have hn0 : ¬ header.length = 0 := by
    cases header
    · exact absurd rfl hne
    · simp
  have hred : equalWidthWithBuffer env placeW header rows = noQueryResult env placeW header rows := by
    unfold equalWidthWithBuffer
    rw [if_neg hn0, if_neg (by push_neg; exact ⟨hflex1, hflex2⟩), if_neg (by omega), if_pos hq]
  have hl2 : (widths2Of env placeW header rows).length = header.length := by
    unfold widths2Of
    simp
  have hlc : (capsOf env placeW header rows).length = header.length := by
    unfold capsOf
    simp
  have hlm : (minwOf env header).length = header.length := by
    unfold minwOf
    simp
  have hperm : (scoreOrderOf env placeW header rows).Perm (List.range header.length) :=
    sortDesc_perm _ _
  have hb := widths2_bounds env placeW header rows (by omega) hmc
  have hsum1 : (minwOf env header).sum ≤ (widths2Of env placeW header rows).sum := by
    refine sum_le_sum_of_getD _ _ (by omega) ?_
    intro j hj
    rw [hlm] at hj
    exact (hb j hj).1
  have hsum2 : (widths2Of env placeW header rows).sum ≤ (capsOf env placeW header rows).sum := by
    refine sum_le_sum_of_getD _ _ (by omega) ?_
    intro j hj
    rw [hl2] at hj
    exact (hb j hj).2
  have hm0 := minwOf_sum_nonneg env header hpad
  obtain ⟨r1, r2, r3⟩ := reconLoop_spec (capsOf env placeW header rows) (minwOf env header)
    placeW (scoreOrderOf env placeW header rows) 10000 (widths2Of env placeW header rows)
    (placeW - (widths2Of env placeW header rows).sum)
    (by
      intro j hjo
      rw [hl2]
      exact List.mem_range.mp (hperm.mem_iff.mp hjo))
    (by
      intro j hjl
      rw [hl2] at hjl
      exact hperm.mem_iff.mpr (List.mem_range.mpr hjl))
    (by omega) (by omega)
    (by rw [hl2]; exact hb)
    rfl hflex2 hcs
    (by omega)
  rw [hred]
  unfold noQueryResult
  refine ⟨r1, r2.trans hl2, ?_⟩
  intro j hj
  exact r3 j (by rw [hl2]; simpa using hj)

/-- Claim C2 counterexample: the claim promises an exact sum on every path,
but with usable width 10 and header `["aaaaa", "bbbbb"]` (each header piece
50 pixels wide under the concrete measurement) the minimum widths already
exceed the page, the `flex_fit_widths` fallback cannot shrink below them,
and the returned vector sums to 100, not 10. -/
theorem C2_cex :
    equalWidthWithBuffer env0 10 [['a', 'a', 'a', 'a', 'a'], ['b', 'b', 'b', 'b', 'b']] []
      = [50, 50] ∧
    (equalWidthWithBuffer env0 10 [['a', 'a', 'a', 'a', 'a'], ['b', 'b', 'b', 'b', 'b']] []).sum
      ≠ 10 := by
  constructor
  · rfl
  · intro h
    rw [show equalWidthWithBuffer env0 10 [['a', 'a', 'a', 'a', 'a'], ['b', 'b', 'b', 'b', 'b']] []
        = [50, 50] from rfl] at h
    simp at h

/-- Claim C2 (amended): on the no-query paths — zero buffer, or a positive
buffer distributed by wrap score — and when the reconciliation can succeed
(minimums fit, caps under-cap no column's minimum, caps can absorb the page,
and the 10000-sweep guard is not the binding constraint), the allocator
returns one width per column, the widths sum exactly to the usable page
width, and every width is at least the column's minimum.  On the
`flex_fit_widths` fallback the exact sum fails (see the counterexample). -/
theorem C2_amended (env : AllocEnv) (placeW : Int) (header : List Str)
    (rows : List (List Str))
    (hne : header ≠ [])
    (hflex1 : (widths0Of env placeW header rows).sum ≤ placeW)
    (hflex2 : (minwOf env header).sum ≤ placeW)
    (hq : qIdxOf env header rows = [])
    (hmc : ∀ j ∈ List.range header.length,
      (minwOf env header).getD j 0 ≤ (capsOf env placeW header rows).getD j 0)
    (hcs : placeW ≤ (capsOf env placeW header rows).sum)
    (hb1 : placeW ≤ 10000)
    (hb2 : (capsOf env placeW header rows).sum ≤ 10000)
    (hpad : 0 ≤ env.padX) :
    (equalWidthWithBuffer env placeW header rows).sum = placeW ∧
    (equalWidthWithBuffer env placeW header rows).length = header.length ∧
    ∀ j ∈ List.range header.length,
      (minwOf env header).getD j 0 ≤ (equalWidthWithBuffer env placeW header rows).getD j 0 := by
  by_cases hbuf : (widths0Of env placeW header rows).sum < placeW
  · obtain ⟨r1, r2, r3⟩ := buffered_noquery_spec env placeW header rows hne hflex1 hflex2
      hbuf hq hmc hcs hb1 hb2 hpad
    exact ⟨r1, r2, fun j hj => (r3 j hj).1⟩
  · have hn0 : ¬ header.length = 0 := by
      cases header
      · exact absurd rfl hne
      · simp
    have heq : equalWidthWithBuffer env placeW header rows = widths0Of env placeW header rows := by
      unfold equalWidthWithBuffer
      rw [if_neg hn0, if_neg (by push_neg; exact ⟨hflex1, hflex2⟩), if_pos (by omega)]
    rw [heq]
    refine ⟨by omega, by unfold widths0Of; simp, ?_⟩
    intro j hj
    exact widths0Of_ge_minw env placeW header rows j (List.mem_range.mp hj)

/-- Claim C2 witness: the amended theorem at usable width 100 and header
`["aa", "bb", "cc"]`; the allocator returns `[34, 33, 33]`, which sums to
100 with every entry at least the minimum 30. -/
theorem C2_witness :
    ((['a', 'a'] :: [['b', 'b'], ['c', 'c']] : List Str) ≠ [] ∧
      (widths0Of env0 100 [['a', 'a'], ['b', 'b'], ['c', 'c']] []).sum ≤ 100 ∧
      (minwOf env0 [['a', 'a'], ['b', 'b'], ['c', 'c']]).sum ≤ 100 ∧
      qIdxOf env0 [['a', 'a'], ['b', 'b'], ['c', 'c']] [] = [] ∧
      (∀ j ∈ List.range ([['a', 'a'], ['b', 'b'], ['c', 'c']] : List Str).length,
        (minwOf env0 [['a', 'a'], ['b', 'b'], ['c', 'c']]).getD j 0 ≤
          (capsOf env0 100 [['a', 'a'], ['b', 'b'], ['c', 'c']] []).getD j 0) ∧
      (100 : Int) ≤ (capsOf env0 100 [['a', 'a'], ['b', 'b'], ['c', 'c']] []).sum ∧
      (100 : Int) ≤ 10000 ∧
      (capsOf env0 100 [['a', 'a'], ['b', 'b'], ['c', 'c']] []).sum ≤ 10000 ∧
      (0 : Int) ≤ env0.padX) ∧
    ((equalWidthWithBuffer env0 100 [['a', 'a'], ['b', 'b'], ['c', 'c']] []).sum = 100 ∧
      (equalWidthWithBuffer env0 100 [['a', 'a'], ['b', 'b'], ['c', 'c']] []).length
        = ([['a', 'a'], ['b', 'b'], ['c', 'c']] : List Str).length ∧
      ∀ j ∈ List.range ([['a', 'a'], ['b', 'b'], ['c', 'c']] : List Str).length,
        (minwOf env0 [['a', 'a'], ['b', 'b'], ['c', 'c']]).getD j 0 ≤
          (equalWidthWithBuffer env0 100 [['a', 'a'], ['b', 'b'], ['c', 'c']] []).getD j 0) :=
  ⟨⟨by decide, by decide, by decide, by decide, by decide, by decide, by decide, by decide,
      by decide⟩,
    C2_amended env0 100 [['a', 'a'], ['b', 'b'], ['c', 'c']] [] (by decide) (by decide)
      (by decide) (by decide) (by decide) (by decide) (by decide) (by decide) (by decide)⟩

lemma caps_eq_45 (env : AllocEnv) (placeW : Int) (header : List Str) (rows : List (List Str))
    (hq : qIdxOf env header rows = []) (j : Nat) (hj : j < header.length) :
    (capsOf env placeW header rows).getD j 0 = (placeW * 45).fdiv 100 := by
  have hfalse : ¬ ((isQOf env header rows).getD j false = true) := by
    intro htrue
    have hmem : j ∈ qIdxOf env header rows := by
      unfold qIdxOf
      exact List.mem_filter.mpr ⟨List.mem_range.mpr hj, htrue⟩
    rw [hq] at hmem
    simp at hmem
  unfold capsOf
  rw [getD_range_map _ _ j hj, if_neg hfalse]

/-- Claim C7 counterexample: the claim promises the 45% cap on every path,
but with usable width 100 and header `["aaaaa", "bbbbb"]` the initial
widths already use the whole page, the buffer is zero, the allocator
returns the widths unclamped — and both non-query columns get 50 pixels,
over the 45-pixel cap. -/
theorem C7_cex :
    equalWidthWithBuffer env0 100 [['a', 'a', 'a', 'a', 'a'], ['b', 'b', 'b', 'b', 'b']] []
      = [50, 50] ∧
    capsOf env0 100 [['a', 'a', 'a', 'a', 'a'], ['b', 'b', 'b', 'b', 'b']] [] = [45, 45] ∧
    isQOf env0 [['a', 'a', 'a', 'a', 'a'], ['b', 'b', 'b', 'b', 'b']] [] = [false, false] ∧
    ¬ (equalWidthWithBuffer env0 100 [['a', 'a', 'a', 'a', 'a'], ['b', 'b', 'b', 'b', 'b']] []).getD 0 0
      ≤ (capsOf env0 100 [['a', 'a', 'a', 'a', 'a'], ['b', 'b', 'b', 'b', 'b']] []).getD 0 0 := by
  refine ⟨rfl, rfl, rfl, ?_⟩
  intro h
  rw [show equalWidthWithBuffer env0 100 [['a', 'a', 'a', 'a', 'a'], ['b', 'b', 'b', 'b', 'b']] []
      = [50, 50] from rfl,
    show capsOf env0 100 [['a', 'a', 'a', 'a', 'a'], ['b', 'b', 'b', 'b', 'b']] []
      = [45, 45] from rfl] at h
  simp at h

/-- Claim C7 (amended): on the no-query path with a POSITIVE buffer (and
solvable reconciliation, as in the amended C2), every column's final width
is at most its cap, which for non-query columns is
`int(place_w * 0.45)`.  The zero-buffer early return and the
`flex_fit_widths` fallback apply no cap at all (see the counterexample). -/
theorem C7_capped (env : AllocEnv) (placeW : Int) (header : List Str)
    (rows : List (List Str))
    (hne : header ≠ [])
    (hflex1 : (widths0Of env placeW header rows).sum ≤ placeW)
    (hflex2 : (minwOf env header).sum ≤ placeW)
    (hbuf : (widths0Of env placeW header rows).sum < placeW)
    (hq : qIdxOf env header rows = [])
    (hmc : ∀ j ∈ List.range header.length,
      (minwOf env header).getD j 0 ≤ (capsOf env placeW header rows).getD j 0)
    (hcs : placeW ≤ (capsOf env placeW header rows).sum)
    (hb1 : placeW ≤ 10000)
    (hb2 : (capsOf env placeW header rows).sum ≤ 10000)
    (hpad : 0 ≤ env.padX) :
    ∀ j ∈ List.range header.length,
      (equalWidthWithBuffer env placeW header rows).getD j 0
        ≤ (capsOf env placeW header rows).getD j 0 ∧
      (capsOf env placeW header rows).getD j 0 = (placeW * 45).fdiv 100 := by
  obtain ⟨_, _, r3⟩ := buffered_noquery_spec env placeW header rows hne hflex1 hflex2
    hbuf hq hmc hcs hb1 hb2 hpad
  intro j hj
  exact ⟨(r3 j hj).2, caps_eq_45 env placeW header rows hq j (List.mem_range.mp hj)⟩

/-- Claim C7 witness: the amended theorem at usable width 100 and header
`["aa", "bb", "cc"]`: the returned widths `[34, 33, 33]` all stay at or
under the non-query cap `int(100 * 0.45) = 45`. -/
theorem C7_witness :
    ((['a', 'a'] :: [['b', 'b'], ['c', 'c']] : List Str) ≠ [] ∧
      (widths0Of env0 100 [['a', 'a'], ['b', 'b'], ['c', 'c']] []).sum ≤ 100 ∧
      (minwOf env0 [['a', 'a'], ['b', 'b'], ['c', 'c']]).sum ≤ 100 ∧
      (widths0Of env0 100 [['a', 'a'], ['b', 'b'], ['c', 'c']] []).sum < 100 ∧
      qIdxOf env0 [['a', 'a'], ['b', 'b'], ['c', 'c']] [] = [] ∧
      (∀ j ∈ List.range ([['a', 'a'], ['b', 'b'], ['c', 'c']] : List Str).length,
        (minwOf env0 [['a', 'a'], ['b', 'b'], ['c', 'c']]).getD j 0 ≤
          (capsOf env0 100 [['a', 'a'], ['b', 'b'], ['c', 'c']] []).getD j 0) ∧
      (100 : Int) ≤ (capsOf env0 100 [['a', 'a'], ['b', 'b'], ['c', 'c']] []).sum ∧
      (100 : Int) ≤ 10000 ∧
      (capsOf env0 100 [['a', 'a'], ['b', 'b'], ['c', 'c']] []).sum ≤ 10000 ∧
      (0 : Int) ≤ env0.padX) ∧
    (∀ j ∈ List.range ([['a', 'a'], ['b', 'b'], ['c', 'c']] : List Str).length,
      (equalWidthWithBuffer env0 100 [['a', 'a'], ['b', 'b'], ['c', 'c']] []).getD j 0
        ≤ (capsOf env0 100 [['a', 'a'], ['b', 'b'], ['c', 'c']] []).getD j 0 ∧
      (capsOf env0 100 [['a', 'a'], ['b', 'b'], ['c', 'c']] []).getD j 0
        = ((100 : Int) * 45).fdiv 100) :=
  ⟨⟨by decide, by decide, by decide, by decide, by decide, by decide, by decide, by decide,
      by decide, by decide⟩,
    C7_capped env0 100 [['a', 'a'], ['b', 'b'], ['c', 'c']] [] (by decide) (by decide)
      (by decide) (by decide) (by decide) (by decide) (by decide) (by decide) (by decide)
      (by decide)⟩
